import Mathlib

/-!
Verification of the gastos-bot core (src/expense_bot.py): the transaction
parser (regex based, with Python re.match backtracking semantics), the
keyword classifier, the monthly aggregator and the confirmation commit step.
Amounts are modelled as rationals; Python float specials (inf, nan) and
digit-grouping underscores are outside the model.
-/

namespace GastosBot

/-- Whitespace set of Python str.strip and of the regex class for spaces,
restricted to the ASCII range actually relevant to the bot's inputs. -/
def pySpace (c : Char) : Bool :=
  c == ' ' || c == '\t' || c == '\n' || c == '\r' || c == '\x0b' || c == '\x0c'

/-- Python str.lower on ASCII capitals and Latin-1 capitals (covers the
accented letters appearing in the category table, e.g. É → é). -/
def pyLower (c : Char) : Char :=
  if 'A' ≤ c ∧ c ≤ 'Z' then Char.ofNat (c.toNat + 32)
  else if 'À' ≤ c ∧ c ≤ 'Þ' ∧ c ≠ '×' then Char.ofNat (c.toNat + 32)
  else c

/-- Python str.strip: drop leading and trailing whitespace. -/
def stripWs (cs : List Char) : List Char :=
  ((cs.dropWhile pySpace).reverse.dropWhile pySpace).reverse

/-- Value of a digit string, most significant first. -/
def digitsVal (ds : List Char) : ℕ :=
  ds.foldl (fun n c => 10 * n + (c.toNat - 48)) 0

/-- Exponent suffix of a Python float literal: empty, or e/E with an
optional sign and digits, consuming the whole remainder. -/
def pyFloatExp (cs : List Char) (m : ℚ) : Option ℚ :=
  match cs with
  | [] => some m
  | e :: t =>
    if e == 'e' || e == 'E' then
      let sgt : ℤ × List Char :=
        match t with
        | c :: u => if c == '+' then (1, u) else if c == '-' then (-1, u) else (1, c :: u)
        | [] => (1, [])
      let ds := sgt.2.takeWhile Char.isDigit
      let r := sgt.2.dropWhile Char.isDigit
      if ds.isEmpty || !r.isEmpty then none
      else some (m * (10 : ℚ) ^ (sgt.1 * (digitsVal ds : ℤ)))
    else none

/-- Unsigned body of a Python float literal: digits, digits.digits,
digits., or .digits, followed by an optional exponent. -/
def pyFloatBody (cs : List Char) : Option ℚ :=
  let ip := cs.takeWhile Char.isDigit
  match cs.dropWhile Char.isDigit with
  | [] => if ip.isEmpty then none else some ((digitsVal ip : ℚ))
  | c :: t =>
    if c == '.' then
      let fp := t.takeWhile Char.isDigit
      let rest2 := t.dropWhile Char.isDigit
      if ip.isEmpty && fp.isEmpty then none
      else pyFloatExp rest2 ((digitsVal ip : ℚ) + (digitsVal fp : ℚ) / (10 : ℚ) ^ fp.length)
    else if ip.isEmpty then none
    else pyFloatExp (c :: t) ((digitsVal ip : ℚ))

/-- Python float(...) conversion on the finite decimal grammar (surrounding
whitespace, one optional sign, digits with optional fraction and exponent).
The float specials inf and nan and underscore digit grouping are omitted:
the model works over exact rationals. -/
def pyFloatL (cs : List Char) : Option ℚ :=
  match stripWs cs with
  | [] => none
  | c :: t =>
    if c == '+' then pyFloatBody t
    else if c == '-' then (pyFloatBody t).map (fun q => -q)
    else pyFloatBody (c :: t)

/-- Python float(...) on a string. -/
def pyFloat (s : String) : Option ℚ :=
  pyFloatL s.data

/-- Python s.replace(",", ".") — single character substitution. -/
def pyReplaceComma (cs : List Char) : List Char :=
  cs.map (fun c => if c == ',' then '.' else c)

/-! ## Regular expression engine

A small backtracking matcher that reproduces Python re.match semantics for
exactly the constructs used by the bot's patterns: character classes, greedy
star and plus over a class, a lazy plus over a class, greedy option, and
capture groups. Priority order of alternatives follows the Python engine:
greedy repetitions try longest first, lazy ones shortest first, an option
tries to consume before matching empty. -/

inductive RE where
  | eps : RE
  | cls : (Char → Bool) → RE
  | seq : RE → RE → RE
  | opt : RE → RE
  | starCls : (Char → Bool) → RE
  | plusCls : (Char → Bool) → RE
  | lazyPlusCls : (Char → Bool) → RE
  | grp : Nat → RE → RE

/-- Captured groups: group index paired with the consumed characters. -/
abbrev Caps := List (Nat × List Char)

/-- All ways to split off a class-satisfying front, shortest first:
entries are (front, rest) with the front all satisfying p. -/
def clsSplits (p : Char → Bool) : List Char → List (List Char × List Char)
  | [] => [([], [])]
  | c :: cs =>
    ([], c :: cs) :: (if p c then (clsSplits p cs).map (fun pr => (c :: pr.1, pr.2)) else [])

/-- First alternative that yields a result. -/
def firstSome : List α → (α → Option β) → Option β
  | [], _ => none
  | x :: xs, f =>
    match f x with
    | some v => some v
    | none => firstSome xs f

/-- Backtracking matcher in continuation-passing style. The continuation
receives the unconsumed input and the captures collected so far; failure of
the continuation backtracks into the alternatives of the current node. -/
def mmatch : RE → List Char → Caps → (List Char → Caps → Option Caps) → Option Caps
  | .eps, cs, caps, k => k cs caps
  | .cls p, cs, caps, k =>
    match cs with
    | [] => none
    | c :: cs' => if p c then k cs' caps else none
  | .seq r1 r2, cs, caps, k =>
    mmatch r1 cs caps (fun cs' caps' => mmatch r2 cs' caps' k)
  | .opt r, cs, caps, k =>
    match mmatch r cs caps k with
    | some v => some v
    | none => k cs caps
  | .starCls p, cs, caps, k =>
    firstSome (clsSplits p cs).reverse (fun pr => k pr.2 caps)
  | .plusCls p, cs, caps, k =>
    firstSome ((clsSplits p cs).drop 1).reverse (fun pr => k pr.2 caps)
  | .lazyPlusCls p, cs, caps, k =>
    firstSome ((clsSplits p cs).drop 1) (fun pr => k pr.2 caps)
  | .grp i r, cs, caps, k =>
    mmatch r cs caps (fun cs' caps' =>
      k cs' ((i, cs.take (cs.length - cs'.length)) :: caps'))

/-- re.match: anchored at the start, need not consume the whole input. -/
def reMatch (r : RE) (cs : List Char) : Option Caps :=
  mmatch r cs [] (fun _ caps => some caps)

/-- match.group(i). -/
def capGroup (i : Nat) (caps : Caps) : Option (List Char) :=
  (caps.find? (fun pr => pr.1 == i)).map (fun pr => pr.2)

/-! ## The bot's regex patterns -/

def isSepCh (c : Char) : Bool := c == ',' || c == '.'

def notNl (c : Char) : Bool := c != '\n'

def isEuro (c : Char) : Bool := c == '€'

def isDollar (c : Char) : Bool := c == '$'

/-- One literal character under re.IGNORECASE. -/
def litCI (c : Char) : RE :=
  .cls (fun x => pyLower x == pyLower c)

/-- A literal string under re.IGNORECASE. -/
def litsCI (s : List Char) : RE :=
  s.foldr (fun c r => .seq (litCI c) r) .eps

/-- The amount group: a regex digit run with an optional decimal part
separated by comma or dot. -/
def numRE : RE :=
  .seq (.plusCls Char.isDigit)
    (.opt (.seq (.opt (.cls isSepCh)) (.plusCls Char.isDigit)))

/-- Literal "pesos" with optional final s, under IGNORECASE. -/
def pesosRE : RE :=
  .seq (litsCI ['p', 'e', 's', 'o']) (.opt (litCI 's'))

/-- Shared tail of the amount-first patterns: the amount group, optional
spacing and currency mark given by mid, then the description group. -/
def amtDescRE (mid : RE) : RE :=
  .seq (.grp 1 numRE)
    (.seq (.starCls pySpace)
      (.seq mid
        (.seq (.starCls pySpace) (.grp 2 (.plusCls notNl)))))

/-- Expense pattern 1: amount, optional €, description. -/
def pattern1 : RE := amtDescRE (.opt (.cls isEuro))

/-- Expense pattern 2: amount, "pesos", description. -/
def pattern2 : RE := amtDescRE pesosRE

/-- Expense pattern 3: amount, "$", description. -/
def pattern3 : RE := amtDescRE (.cls isDollar)

/-- Tail of expense pattern 4 after the lazy description group:
spacing, the amount group, spacing, optional €. -/
def tail4 : RE :=
  .seq (.starCls pySpace)
    (.seq (.grp 2 numRE)
      (.seq (.starCls pySpace) (.opt (.cls isEuro))))

/-- Expense pattern 4: lazy description, then trailing amount with optional €. -/
def pattern4 : RE := .seq (.grp 1 (.lazyPlusCls notNl)) tail4

/-- Tail of expense pattern 5: spacing, amount group, spacing, "pesos". -/
def tail5 : RE :=
  .seq (.starCls pySpace)
    (.seq (.grp 2 numRE)
      (.seq (.starCls pySpace) pesosRE))

/-- Expense pattern 5: lazy description, then trailing amount with "pesos". -/
def pattern5 : RE := .seq (.grp 1 (.lazyPlusCls notNl)) tail5

def expensePatterns : List RE :=
  [pattern1, pattern2, pattern3, pattern4, pattern5]

/-- An income pattern: an anchored keyword, whitespace, then an amount-first
body with the given currency mark. -/
def incomeRE (kw : List Char) (mid : RE) : RE :=
  .seq (litsCI kw) (.seq (.plusCls pySpace) (amtDescRE mid))

def incomePatterns : List RE :=
  [ incomeRE ['i', 'n', 'g', 'r', 'e', 's', 'o'] (.opt (.cls isEuro))
  , incomeRE ['i', 'n', 'g', 'r', 'e', 's', 'o'] pesosRE
  , incomeRE ['c', 'o', 'b', 'r', 'é'] (.opt (.cls isEuro))
  , incomeRE ['c', 'o', 'b', 'r', 'é'] pesosRE
  , incomeRE ['e', 'n', 't', 'r', 'a', 'd', 'a'] (.opt (.cls isEuro)) ]

/-! ## Transaction parser (ExpenseBot.parse_expense / parse_income) -/

/-- One iteration of parse_expense's pattern loop: on a match, try the
first group as the amount (after comma normalisation); on conversion
failure try the second group; on both failing, fall through (continue). -/
def tryPattern (r : RE) (msg : List Char) : Option (ℚ × String) :=
  match reMatch r msg with
  | none => none
  | some caps =>
    match capGroup 1 caps, capGroup 2 caps with
    | some g0, some g1 =>
      match pyFloatL (pyReplaceComma g0) with
      | some a => some (a, String.mk (stripWs g1))
      | none =>
        match pyFloatL (pyReplaceComma g1) with
        | some a => some (a, String.mk (stripWs g0))
        | none => none
    | _, _ => none

/-- ExpenseBot.parse_expense: strip the message, try the five expense
patterns in order, first convertible match wins. -/
def parse_expense (message : String) : Option (ℚ × String) :=
  firstSome expensePatterns (fun r => tryPattern r (stripWs message.data))

/-- One iteration of parse_income's loop: group 1 is the amount, group 2
the description; a conversion failure falls through to the next pattern. -/
def tryIncomePattern (r : RE) (msg : List Char) : Option (ℚ × String) :=
  match reMatch r msg with
  | none => none
  | some caps =>
    match capGroup 1 caps, capGroup 2 caps with
    | some g1, some g2 =>
      match pyFloatL (pyReplaceComma g1) with
      | some a => some (a, String.mk (stripWs g2))
      | none => none
    | _, _ => none

/-- ExpenseBot.parse_income. -/
def parse_income (message : String) : Option (ℚ × String) :=
  firstSome incomePatterns (fun r => tryIncomePattern r (stripWs message.data))

/-- Message routing of ExpenseBot.handle_expense: income is parsed first
and short-circuits; only otherwise is the expense parser consulted. -/
inductive TxKind where
  | expense : TxKind
  | income : TxKind
deriving DecidableEq

/-- Observable outcome of handle_expense's routing: the parsed kind,
amount and description of the recognised transaction. -/
def parse_message (message : String) : Option (TxKind × ℚ × String) :=
  match parse_income message with
  | some (a, d) => some (.income, a, d)
  | none =>
    match parse_expense message with
    | some (a, d) => some (.expense, a, d)
    | none => none

/-! ## The parser under the full float() model

Python's float() also accepts the case-insensitive special spellings
inf, infinity and nan, with an optional sign. Those have no rational
value, so the rational-valued parser above cannot represent them; the
definitions below re-run the same patterns with float() extended by the
special values, which is the faithful embedding of the source's float()
call. (Underscore digit grouping remains outside the model: a capture of
the bot's regexes that contains an underscore never has the shape of an
underscore-grouped literal, because the lazy description group always
stops before an interior digit.) -/

/-- Result of Python float() on a string: a finite rational or one of
the special values. NaN is kept abstract; no ordering on it is used. -/
inductive PyVal where
  | finite : ℚ → PyVal
  | pinf : PyVal
  | ninf : PyVal
  | nan : PyVal
deriving DecidableEq

/-- The unsigned infinity spellings accepted by float(), case-insensitive. -/
def isInfStr (l : List Char) : Bool :=
  decide (l.map pyLower = ['i', 'n', 'f'])
    || decide (l.map pyLower = ['i', 'n', 'f', 'i', 'n', 'i', 't', 'y'])

/-- The unsigned nan spelling accepted by float(), case-insensitive. -/
def isNanStr (l : List Char) : Bool :=
  decide (l.map pyLower = ['n', 'a', 'n'])

/-- Python float() including the special forms: surrounding whitespace,
one optional sign, then inf/infinity/nan (any case) or a finite decimal
literal, the latter delegated to the rational model. -/
def pyFloatFull (cs : List Char) : Option PyVal :=
  match stripWs cs with
  | [] => none
  | c :: r =>
    if c == '+' then
      if isInfStr r then some .pinf
      else if isNanStr r then some .nan
      else (pyFloatL cs).map .finite
    else if c == '-' then
      if isInfStr r then some .ninf
      else if isNanStr r then some .nan
      else (pyFloatL cs).map .finite
    else
      if isInfStr (c :: r) then some .pinf
      else if isNanStr (c :: r) then some .nan
      else (pyFloatL cs).map .finite

/-- One iteration of parse_expense's pattern loop under the full float()
model: identical to tryPattern except that the conversions are total on
the special spellings. -/
def tryPatternFull (r : RE) (msg : List Char) : Option (PyVal × String) :=
  match reMatch r msg with
  | none => none
  | some caps =>
    match capGroup 1 caps, capGroup 2 caps with
    | some g0, some g1 =>
      match pyFloatFull (pyReplaceComma g0) with
      | some a => some (a, String.mk (stripWs g1))
      | none =>
        match pyFloatFull (pyReplaceComma g1) with
        | some a => some (a, String.mk (stripWs g0))
        | none => none
    | _, _ => none

/-- ExpenseBot.parse_expense under the full float() model. -/
def parse_expense_full (message : String) : Option (PyVal × String) :=
  firstSome expensePatterns (fun r => tryPatternFull r (stripWs message.data))

/-- One iteration of parse_income's loop under the full float() model. -/
def tryIncomePatternFull (r : RE) (msg : List Char) : Option (PyVal × String) :=
  match reMatch r msg with
  | none => none
  | some caps =>
    match capGroup 1 caps, capGroup 2 caps with
    | some g1, some g2 =>
      match pyFloatFull (pyReplaceComma g1) with
      | some a => some (a, String.mk (stripWs g2))
      | none => none
    | _, _ => none

/-- ExpenseBot.parse_income under the full float() model. -/
def parse_income_full (message : String) : Option (PyVal × String) :=
  firstSome incomePatterns (fun r => tryIncomePatternFull r (stripWs message.data))

/-! ## Classifier (ExpenseBot.categorize_expense) -/

/-- The category keyword table, in the declaration order of the source. -/
def categories : List (String × List String) :=
  [ ("comida", ["restaurante", "comida", "cena", "almuerzo", "desayuno", "pizza", "burger", "café", "bar"])
  , ("transporte", ["uber", "taxi", "metro", "bus", "gasolina", "combustible", "parking"])
  , ("entretenimiento", ["cine", "teatro", "concierto", "juego", "netflix", "spotify"])
  , ("compras", ["tienda", "ropa", "zapatos", "amazon", "mercado", "supermercado"])
  , ("servicios", ["luz", "agua", "gas", "internet", "teléfono", "streaming"])
  , ("salud", ["doctor", "farmacia", "medicina", "hospital", "dentista"])
  , ("educación", ["curso", "libro", "universidad", "academia"])
  , ("otros", []) ]

/-- Income source list of ExpenseBot.handle_income. -/
def income_sources : List String :=
  ["salario", "freelance", "venta", "bono", "intereses", "regalo", "otros"]

/-- Substring containment, Python's `needle in hay`. -/
def containsSub (needle : List Char) : List Char → Bool
  | [] => needle.isEmpty
  | c :: t => needle.isPrefixOf (c :: t) || containsSub needle t

/-- The loop body of categorize_expense: walk the table in order and
return the first category one of whose keywords occurs in the (already
lowercased) description; fall through to "otros". -/
def categorize_loop : List (String × List String) → List Char → String
  | [], _ => "otros"
  | (cat, kws) :: rest, dl =>
    if kws.any (fun kw => containsSub kw.data dl) then cat
    else categorize_loop rest dl

/-- ExpenseBot.categorize_expense. -/
def categorize_expense (description : String) : String :=
  categorize_loop categories (description.data.map pyLower)

/-- Modelled from the spec: the classifier as described in §4.2 — iterate
categories in table-declared order, return the first whose keyword set
contains a keyword occurring as a case-insensitive substring of the
description, else the catch-all. Written with find? and with both sides
lowercased, to be compared with categorize_expense. -/
def classifySpec (description : String) (table : List (String × List String)) : String :=
  match table.find? (fun p =>
      p.2.any (fun kw => containsSub (kw.data.map pyLower) (description.data.map pyLower))) with
  | some p => p.1
  | none => "otros"

/-! ## Aggregator (ExpenseBot.get_monthly_summary) -/

/-- Python s.startswith(t). -/
def pyStartsWith (s t : String) : Bool :=
  t.data.isPrefixOf s.data

/-- One row of the Gastos sheet as read back by get_all_records,
restricted to the fields the aggregator uses. -/
structure ExpenseRecord where
  fecha : String
  cantidad : ℚ
  categoria : String
deriving DecidableEq

/-- One row of the Ingresos sheet, restricted to the fields used. -/
structure IncomeRecord where
  fecha : String
  cantidad : ℚ
deriving DecidableEq

/-- The month filter of get_monthly_summary: records whose date starts
with the target month string. -/
def monthlyExpenses (month : String) (records : List ExpenseRecord) : List ExpenseRecord :=
  records.filter (fun r => pyStartsWith r.fecha month)

/-- The month filter applied to the income records. -/
def monthlyIncome (month : String) (records : List IncomeRecord) : List IncomeRecord :=
  records.filter (fun r => pyStartsWith r.fecha month)

/-- Python dict update m[k] = m.get(k, 0) + v: an existing key keeps its
insertion position, a new key is appended. -/
def dictAdd (m : List (String × ℚ)) (k : String) (v : ℚ) : List (String × ℚ) :=
  if m.any (fun p => p.1 == k) then
    m.map (fun p => if p.1 == k then (p.1, p.2 + v) else p)
  else m ++ [(k, v)]

/-- The derived monthly aggregate. -/
structure MonthlyAggregate where
  total_expense : ℚ
  total_income : ℚ
  balance : ℚ
  category_totals : List (String × ℚ)
deriving DecidableEq

/-- Core computation of ExpenseBot.get_monthly_summary: filter both record
sets by month, sum amounts, and accumulate per-category totals in first
insertion order. The current month, read from the wall clock in the
source, is a parameter here. -/
def get_monthly_summary (month : String) (expense_records : List ExpenseRecord)
    (income_records : List IncomeRecord) : MonthlyAggregate :=
  let me := monthlyExpenses month expense_records
  let mi := monthlyIncome month income_records
  let total_spent := me.foldl (fun acc r => acc + r.cantidad) 0
  let total_in := mi.foldl (fun acc r => acc + r.cantidad) 0
  { total_expense := total_spent
  , total_income := total_in
  , balance := total_in - total_spent
  , category_totals := me.foldl (fun m r => dictAdd m r.categoria r.cantidad) [] }

/-- The percentage computation of the summary message: guarded division,
0 when the total is not positive. -/
def categoryPercentage (amount total : ℚ) : ℚ :=
  if total > 0 then amount / total * 100 else 0

/-- Stable insertion for the descending sort of category totals. -/
def insertDesc (x : String × ℚ) : List (String × ℚ) → List (String × ℚ)
  | [] => [x]
  | y :: t => if x.2 > y.2 then x :: y :: t else y :: insertDesc x t

/-- sorted(category_totals.items(), key amount, reverse) of the summary. -/
def sortDescByAmount (l : List (String × ℚ)) : List (String × ℚ) :=
  l.foldr insertDesc []

/-- The per-category percentages as rendered in the summary message. -/
def summaryPercentages (agg : MonthlyAggregate) : List (String × ℚ) :=
  (sortDescByAmount agg.category_totals).map
    (fun p => (p.1, categoryPercentage p.2 agg.total_expense))

/-! ## Confirmation commit (ExpenseBot.handle_category_selection) -/

/-- Python s.split(sep, n): at most n splits, scanning left to right. -/
def splitCh (sep : Char) : Nat → List Char → List (List Char)
  | 0, cs => [cs]
  | n + 1, cs =>
    if cs.any (fun c => c == sep) then
      cs.takeWhile (fun c => c != sep) ::
        splitCh sep n ((cs.dropWhile (fun c => c != sep)).drop 1)
    else [cs]

/-- A cell of an appended sheet row. -/
inductive Field where
  | s : String → Field
  | q : ℚ → Field
deriving DecidableEq

/-- The two store sheets the commit step appends to. -/
structure CommitState where
  expenses : List (List Field)
  income : List (List Field)
deriving DecidableEq

/-- Observable outcome of the commit step. -/
inductive CommitOutcome where
  | savedExpense : CommitOutcome
  | savedIncome : CommitOutcome
  | ignored : CommitOutcome
  | errorInvalid : CommitOutcome
deriving DecidableEq

/-- The callback payload built by handle_expense / handle_income:
prefix, label, amount and description joined with underscores. The
amount is passed in its rendered string form. -/
def callbackPayload (tp label amtStr desc : String) : String :=
  tp ++ "_" ++ label ++ "_" ++ amtStr ++ "_" ++ desc

/-- ExpenseBot.handle_category_selection: split the payload on "_" with
at most 3 splits, convert the amount, and append a row to the sheet
selected by the prefix. An indexing or conversion failure is the
caught-exception path: an error is reported and no row is appended.
The wall-clock fields are parameters. -/
def handle_category_selection (payload dateStr username month year : String)
    (st : CommitState) : CommitState × CommitOutcome :=
  let parts := (splitCh '_' 3 payload.data).map String.mk
  match parts[0]?, parts[1]?, parts[2]?, parts[3]? with
  | some tp, some label, some amtStr, some desc =>
    match pyFloat amtStr with
    | none => (st, .errorInvalid)
    | some amount =>
      if tp = "cat" then
        ({ st with expenses := st.expenses ++
            [[.s dateStr, .s desc, .q amount, .s label, .s username, .s "Gasto", .s month, .s year]] },
          .savedExpense)
      else if tp = "inc" then
        ({ st with income := st.income ++
            [[.s dateStr, .s desc, .q amount, .s label, .s username, .s month, .s year]] },
          .savedIncome)
      else (st, .ignored)
  | _, _, _, _ => (st, .errorInvalid)

/-! ## Matching shapes: decidable forms and the declarative engine -/

/-- Shape of a string matched in full by the amount group: a digit run,
optionally followed by a separator and a second digit run. -/
def NumParts (cs : List Char) : Prop :=
  (cs ≠ [] ∧ ∀ c ∈ cs, c.isDigit = true) ∨
  (∃ d1 s d2, cs = d1 ++ s :: d2 ∧ d1 ≠ [] ∧ (∀ c ∈ d1, c.isDigit = true) ∧
    isSepCh s = true ∧ d2 ≠ [] ∧ (∀ c ∈ d2, c.isDigit = true))

/-- Decidable form of NumParts. -/
def numShapeB (cs : List Char) : Bool :=
  !(cs.takeWhile Char.isDigit).isEmpty &&
    (match cs.dropWhile Char.isDigit with
     | [] => true
     | c :: t => isSepCh c && !t.isEmpty && t.all Char.isDigit)

/-- Decidable form of the description side conditions: non-empty, no
leading whitespace or euro sign, no trailing whitespace, no newline. -/
def goodDescB (d : List Char) : Bool :=
  !d.isEmpty &&
  (match d.head? with
   | some c => !pySpace c && !isEuro c
   | none => false) &&
  (match d.getLast? with
   | some c => !pySpace c
   | none => false) &&
  d.all notNl

/-- Declarative characterisation of what a regex can consume, together
with the capture entries it contributes (innermost first). -/
inductive REMatch : RE → List Char → Caps → Prop where
  | eps : REMatch .eps [] []
  | cls {p : Char → Bool} {c : Char} : p c = true → REMatch (.cls p) [c] []
  | seq {r1 r2 : RE} {l1 l2 : List Char} {e1 e2 : Caps} :
      REMatch r1 l1 e1 → REMatch r2 l2 e2 → REMatch (.seq r1 r2) (l1 ++ l2) (e2 ++ e1)
  | optSome {r : RE} {l : List Char} {e : Caps} :
      REMatch r l e → REMatch (.opt r) l e
  | optNone {r : RE} : REMatch (.opt r) [] []
  | star {p : Char → Bool} {l : List Char} :
      (∀ c ∈ l, p c = true) → REMatch (.starCls p) l []
  | plus {p : Char → Bool} {l : List Char} :
      l ≠ [] → (∀ c ∈ l, p c = true) → REMatch (.plusCls p) l []
  | lazy {p : Char → Bool} {l : List Char} :
      l ≠ [] → (∀ c ∈ l, p c = true) → REMatch (.lazyPlusCls p) l []
  | grp {i : Nat} {r : RE} {l : List Char} {e : Caps} :
      REMatch r l e → REMatch (.grp i r) l ((i, l) :: e)

/-- A regex containing no capture groups. -/
def groupFree : RE → Bool
  | .eps => true
  | .cls _ => true
  | .seq r1 r2 => groupFree r1 && groupFree r2
  | .opt r => groupFree r
  | .starCls _ => true
  | .plusCls _ => true
  | .lazyPlusCls _ => true
  | .grp _ _ => false

/-! ## General list lemmas -/

lemma takeWhile_append_all {α} (p : α → Bool) (l r : List α)
    (hl : ∀ c ∈ l, p c = true) (hr : ∀ c, r.head? = some c → p c = false) :
    (l ++ r).takeWhile p = l := by
  induction l with
  | nil =>
    cases r with
    | nil => rfl
    | cons c t => simp [List.takeWhile_cons, hr c rfl]
  | cons c t ih =>
    simp only [List.cons_append, List.takeWhile_cons, hl c (by simp)]
    simp [ih (fun x hx => hl x (by simp [hx]))]

lemma dropWhile_append_all {α} (p : α → Bool) (l r : List α)
    (hl : ∀ c ∈ l, p c = true) (hr : ∀ c, r.head? = some c → p c = false) :
    (l ++ r).dropWhile p = r := by
  induction l with
  | nil =>
    cases r with
    | nil => rfl
    | cons c t => simp [List.dropWhile_cons, hr c rfl]
  | cons c t ih =>
    simp only [List.cons_append, List.dropWhile_cons, hl c (by simp)]
    simp [ih (fun x hx => hl x (by simp [hx]))]

lemma any_congr_mem {α} (l : List α) (p q : α → Bool) (h : ∀ x ∈ l, p x = q x) :
    l.any p = l.any q := by
  induction l with
  | nil => rfl
  | cons a t ih =>
    simp only [List.any_cons, h a (by simp), ih (fun x hx => h x (by simp [hx]))]

lemma mem_insertDesc (a x : String × ℚ) (l : List (String × ℚ)) :
    a ∈ insertDesc x l ↔ a = x ∨ a ∈ l := by
  induction l with
  | nil => simp [insertDesc]
  | cons y t ih =>
    by_cases h : x.2 > y.2
    · simp [insertDesc, h]
    · simp only [insertDesc, if_neg h, List.mem_cons, ih]
      tauto

lemma mem_sortDescByAmount (a : String × ℚ) (l : List (String × ℚ)) :
    a ∈ sortDescByAmount l ↔ a ∈ l := by
  induction l with
  | nil => simp [sortDescByAmount]
  | cons x t ih =>
    simp only [sortDescByAmount, List.foldr_cons, List.mem_cons]
    rw [show List.foldr insertDesc [] t = sortDescByAmount t from rfl] at *
    rw [mem_insertDesc, ih]

lemma splitCh_step (sep : Char) (n : Nat) (l r : List Char) (h : sep ∉ l) :
    splitCh sep (n + 1) (l ++ sep :: r) = l :: splitCh sep n r := by
  have hl : ∀ c ∈ l, (c != sep) = true := by
    intro c hc
    simp only [bne_iff_ne, ne_eq]
    exact fun hcs => h (hcs ▸ hc)
  have hany : (l ++ sep :: r).any (fun c => c == sep) = true := by
    simp only [List.any_eq_true]
    exact ⟨sep, by simp, by simp⟩
  have htake : (l ++ sep :: r).takeWhile (fun c => c != sep) = l :=
    takeWhile_append_all _ l (sep :: r) hl (by intro c hc; simp at hc; simp [hc])
  have hdrop : (l ++ sep :: r).dropWhile (fun c => c != sep) = sep :: r :=
    dropWhile_append_all _ l (sep :: r) hl (by intro c hc; simp at hc; simp [hc])
  simp only [splitCh, hany, if_pos, htake, hdrop, List.drop_one, List.tail_cons]

lemma string_mk_data (s : String) : String.mk s.data = s := rfl

/-! ## Claim C6: aggregator correctness on the specified record sets -/

/-- C6. With exactly the two expense records (2024-05-01, 50, comida) and
(2024-05-02, 30, transporte) and the income record (2024-05-01, 200), the
"2024-05" summary has total_expense 80, total_income 200, balance 120,
category totals comida 50 and transporte 30, and a comida percentage
of 62.5. -/
theorem c6_aggregator_correct :
    get_monthly_summary "2024-05"
        [⟨"2024-05-01", 50, "comida"⟩, ⟨"2024-05-02", 30, "transporte"⟩]
        [⟨"2024-05-01", 200⟩]
      = ⟨80, 200, 120, [("comida", 50), ("transporte", 30)]⟩
    ∧ ("comida", (62.5 : ℚ)) ∈ summaryPercentages (get_monthly_summary "2024-05"
        [⟨"2024-05-01", 50, "comida"⟩, ⟨"2024-05-02", 30, "transporte"⟩]
        [⟨"2024-05-01", 200⟩]) := by
  have h1 : get_monthly_summary "2024-05"
      [⟨"2024-05-01", 50, "comida"⟩, ⟨"2024-05-02", 30, "transporte"⟩]
      [⟨"2024-05-01", 200⟩]
      = ⟨80, 200, 120, [("comida", 50), ("transporte", 30)]⟩ := by
    have h0 : get_monthly_summary "2024-05"
        [⟨"2024-05-01", 50, "comida"⟩, ⟨"2024-05-02", 30, "transporte"⟩]
        [⟨"2024-05-01", 200⟩]
        = ⟨0 + 50 + 30, 0 + 200, (0 + 200) - (0 + 50 + 30),
           [("comida", 50), ("transporte", 30)]⟩ := rfl
    rw [h0]
    simp only [MonthlyAggregate.mk.injEq]
    norm_num
  refine ⟨h1, ?_⟩
  rw [h1]
  have h2 : summaryPercentages ⟨80, 200, 120, [("comida", 50), ("transporte", 30)]⟩
      = [("comida", (50 : ℚ) / 80 * 100), ("transporte", (30 : ℚ) / 80 * 100)] := rfl
  rw [h2]
  have h3 : (62.5 : ℚ) = (50 : ℚ) / 80 * 100 := by norm_num
  rw [h3]
  exact List.mem_cons_self _ _

/-! ## Claim C7: the month filter is a pure string-prefix match -/

/-- C7. A record enters the monthly sets of the aggregator exactly when
its date starts with the month prefix; a record whose date does not start
with the prefix contributes to no total, and "2024-06-01" does not start
with the 7-character prefix "2024-05". -/
theorem c7_month_filter :
    (∀ (m : String) (rs : List ExpenseRecord) (r : ExpenseRecord),
      r ∈ monthlyExpenses m rs ↔ r ∈ rs ∧ pyStartsWith r.fecha m = true)
    ∧ (∀ (m : String) (rs : List IncomeRecord) (r : IncomeRecord),
      r ∈ monthlyIncome m rs ↔ r ∈ rs ∧ pyStartsWith r.fecha m = true)
    ∧ (∀ (r : ExpenseRecord) (es : List ExpenseRecord) (inc : List IncomeRecord),
      pyStartsWith r.fecha "2024-05" = false →
      get_monthly_summary "2024-05" (r :: es) inc = get_monthly_summary "2024-05" es inc)
    ∧ pyStartsWith "2024-06-01" "2024-05" = false ∧ "2024-05".length = 7 := by
  refine ⟨?_, ?_, ?_, by decide, by decide⟩
  · intro m rs r
    simp [monthlyExpenses, List.mem_filter]
  · intro m rs r
    simp [monthlyIncome, List.mem_filter]
  · intro r es inc h
    have hf : monthlyExpenses "2024-05" (r :: es) = monthlyExpenses "2024-05" es := by
      simp [monthlyExpenses, List.filter_cons, h]
    simp [get_monthly_summary, hf]

/-- Witness for C7: the record dated 2024-06-01 is dropped from the
2024-05 summary. -/
theorem c7_month_filter_witness :
    get_monthly_summary "2024-05" [⟨"2024-06-01", 10, "comida"⟩] []
      = get_monthly_summary "2024-05" [] [] :=
  c7_month_filter.2.2.1 ⟨"2024-06-01", 10, "comida"⟩ [] [] (by decide)

/-! ## Claim C8: guarded percentage computation -/

/-- C8. Every category of the computed aggregate is reported with
percentage amount / total_expense * 100 when total_expense is positive,
and with percentage 0 when total_expense is 0: the division branch is
only taken under the positivity guard. -/
theorem c8_percentage_guarded :
    ∀ (m : String) (es : List ExpenseRecord) (inc : List IncomeRecord) (c : String) (amt : ℚ),
      (c, amt) ∈ (get_monthly_summary m es inc).category_totals →
      (0 < (get_monthly_summary m es inc).total_expense →
        (c, amt / (get_monthly_summary m es inc).total_expense * 100) ∈
          summaryPercentages (get_monthly_summary m es inc))
      ∧ ((get_monthly_summary m es inc).total_expense = 0 →
        (c, 0) ∈ summaryPercentages (get_monthly_summary m es inc)) := by
  intro m es inc c amt hmem
  have h1 : (c, amt) ∈ sortDescByAmount (get_monthly_summary m es inc).category_totals :=
    (mem_sortDescByAmount _ _).2 hmem
  constructor
  · intro hpos
    have h2 := List.mem_map_of_mem
      (fun p => (p.1, categoryPercentage p.2 (get_monthly_summary m es inc).total_expense)) h1
    simpa [summaryPercentages, categoryPercentage, hpos] using h2
  · intro hz
    have h2 := List.mem_map_of_mem
      (fun p => (p.1, categoryPercentage p.2 (get_monthly_summary m es inc).total_expense)) h1
    simpa [summaryPercentages, categoryPercentage, hz] using h2

/-- Witness for C8 at a concrete aggregate with positive total. -/
theorem c8_percentage_guarded_witness :
    ("comida", (50 : ℚ)
        / (get_monthly_summary "2024-05" [⟨"2024-05-01", 50, "comida"⟩] []).total_expense
        * 100)
      ∈ summaryPercentages (get_monthly_summary "2024-05" [⟨"2024-05-01", 50, "comida"⟩] []) :=
  (c8_percentage_guarded "2024-05" [⟨"2024-05-01", 50, "comida"⟩] [] "comida" 50
    (by exact List.mem_cons_self _ _)).1 (by show (0 : ℚ) < 0 + 50; norm_num)

/-! ## Claim C5: classifier first-match semantics -/

lemma categorize_loop_eq_spec (t : List (String × List String)) (d : String)
    (h : ∀ pr ∈ t, ∀ kw ∈ pr.2, kw.data.map pyLower = kw.data) :
    categorize_loop t (d.data.map pyLower) = classifySpec d t := by
  induction t with
  | nil => rfl
  | cons pr rest ih =>
    obtain ⟨cat, kws⟩ := pr
    have hany : kws.any (fun kw => containsSub (kw.data.map pyLower) (d.data.map pyLower))
        = kws.any (fun kw => containsSub kw.data (d.data.map pyLower)) := by
      apply any_congr_mem
      intro kw hkw
      rw [h (cat, kws) (by simp) kw hkw]
    cases hc : kws.any (fun kw => containsSub kw.data (d.data.map pyLower)) with
    | true =>
      simp only [categorize_loop, hc, if_pos, classifySpec, List.find?_cons]
      rw [hany.trans hc]
    | false =>
      simp only [categorize_loop, hc, Bool.false_eq_true, if_neg, not_false_iff, classifySpec,
        List.find?_cons]
      rw [hany.trans hc]
      rw [ih (fun x hx => h x (by simp [hx]))]
      simp [classifySpec]

/-- C5. The classifier agrees with the spec's first-declared-match
iteration over the table (with the catch-all "otros" on no match), and in
particular classifies "café y uber" as comida, the earlier-declared of the
two matching categories. -/
theorem c5_classifier_first_match :
    (∀ d : String, categorize_expense d = classifySpec d categories)
    ∧ categorize_expense "café y uber" = "comida" := by
  constructor
  · intro d
    exact categorize_loop_eq_spec categories d (by decide)
  · decide

/-! ## Claim C4: income takes precedence over expense parsing -/

/-- C4. Whenever the income parser recognises a message, the routing
returns an income transaction — the expense patterns are not consulted —
and in particular "ingreso 500 uber" parses as income 500 "uber" even
though uber is an expense keyword. -/
theorem c4_income_precedence :
    (∀ (msg : String) (a : ℚ) (d : String),
      parse_income msg = some (a, d) → parse_message msg = some (.income, a, d))
    ∧ parse_message "ingreso 500 uber" = some (.income, 500, "uber") := by
  constructor
  · intro msg a d h
    simp [parse_message, h]
  · decide

/-- Witness for C4 on a second income form. -/
theorem c4_income_precedence_witness :
    parse_message "cobré 500 freelance" = some (.income, 500, "freelance") :=
  c4_income_precedence.1 "cobré 500 freelance" 500 "freelance" (by decide)

/-! ## Claim C1: the commit step does not validate labels -/

/-- Counterexample to C1 as stated: a confirmation payload whose label
"foobar" is not in the category set still commits: the row is appended
with the unknown label and the outcome is a success, not an error. -/
theorem c1_counterexample :
    "foobar" ∉ categories.map Prod.fst
    ∧ handle_category_selection "cat_foobar_50_x" "d" "u" "m" "y" ⟨[], []⟩
      = (⟨[[.s "d", .s "x", .q 50, .s "foobar", .s "u", .s "Gasto", .s "m", .s "y"]], []⟩,
         .savedExpense) := by
  constructor
  · decide
  · decide

/-- C1 amended. The commit step performs no membership check on the label,
for either commit kind: for any label at all (underscore-free, as all
enumerated labels are), a well-formed payload with prefix "cat" commits an
expense row and one with prefix "inc" commits an income row, each carrying
that label; only a structurally malformed payload (missing parts or a
non-convertible amount) takes the error path, and on the error path the
stored state is unchanged. -/
theorem c1_commit_no_label_validation :
    (∀ (label amt desc dateStr user mo yr : String) (st : CommitState) (q : ℚ),
      '_' ∉ label.data → '_' ∉ amt.data → pyFloat amt = some q →
      handle_category_selection (callbackPayload "cat" label amt desc) dateStr user mo yr st
        = ({ st with expenses := st.expenses ++
            [[.s dateStr, .s desc, .q q, .s label, .s user, .s "Gasto", .s mo, .s yr]] },
           .savedExpense))
    ∧ (∀ (label amt desc dateStr user mo yr : String) (st : CommitState) (q : ℚ),
      '_' ∉ label.data → '_' ∉ amt.data → pyFloat amt = some q →
      handle_category_selection (callbackPayload "inc" label amt desc) dateStr user mo yr st
        = ({ st with income := st.income ++
            [[.s dateStr, .s desc, .q q, .s label, .s user, .s mo, .s yr]] },
           .savedIncome))
    ∧ (∀ (payload dateStr user mo yr : String) (st : CommitState),
      (handle_category_selection payload dateStr user mo yr st).2 = .errorInvalid →
      (handle_category_selection payload dateStr user mo yr st).1 = st) := by
  refine ⟨?_, ?_, ?_⟩
  · intro label amt desc dateStr user mo yr st q hlab hamt hq
    have hdata : (callbackPayload "cat" label amt desc).data
        = "cat".data ++ '_' :: (label.data ++ '_' :: (amt.data ++ '_' :: desc.data)) := by
      simp [callbackPayload, String.data_append]
    have hsplit : splitCh '_' 3 (callbackPayload "cat" label amt desc).data
        = ["cat".data, label.data, amt.data, desc.data] := by
      rw [hdata, splitCh_step '_' 2 "cat".data _ (by decide),
        splitCh_step '_' 1 label.data _ hlab, splitCh_step '_' 0 amt.data _ hamt]
      rfl
    simp [handle_category_selection, hsplit, string_mk_data, hq]
  · intro label amt desc dateStr user mo yr st q hlab hamt hq
    have hdata : (callbackPayload "inc" label amt desc).data
        = "inc".data ++ '_' :: (label.data ++ '_' :: (amt.data ++ '_' :: desc.data)) := by
      simp [callbackPayload, String.data_append]
    have hsplit : splitCh '_' 3 (callbackPayload "inc" label amt desc).data
        = ["inc".data, label.data, amt.data, desc.data] := by
      rw [hdata, splitCh_step '_' 2 "inc".data _ (by decide),
        splitCh_step '_' 1 label.data _ hlab, splitCh_step '_' 0 amt.data _ hamt]
      rfl
    simp [handle_category_selection, hsplit, string_mk_data, hq]
  · intro payload dateStr user mo yr st
    unfold handle_category_selection
    cases h0 : ((splitCh '_' 3 payload.data).map String.mk)[0]? <;>
      cases h1 : ((splitCh '_' 3 payload.data).map String.mk)[1]? <;>
        cases h2 : ((splitCh '_' 3 payload.data).map String.mk)[2]? <;>
          cases h3 : ((splitCh '_' 3 payload.data).map String.mk)[3]? <;>
            simp only [h0, h1, h2, h3]
    all_goals try (intro _; trivial)
    rename_i tp label amtStr desc
    cases hq : pyFloat amtStr <;> simp only [hq]
    · intro _; trivial
    · by_cases htp : tp = "cat"
      · simp [htp]
      · by_cases htp2 : tp = "inc"
        · simp [htp, htp2]
        · simp [htp, htp2]

/-- Witness for C1: committing with the out-of-set label foobar, for both
commit kinds. -/
theorem c1_commit_no_label_validation_witness :
    handle_category_selection (callbackPayload "cat" "foobar" "50" "x") "d" "u" "m" "y" ⟨[], []⟩
      = (⟨[[.s "d", .s "x", .q 50, .s "foobar", .s "u", .s "Gasto", .s "m", .s "y"]], []⟩,
         .savedExpense)
    ∧ handle_category_selection (callbackPayload "inc" "foobar" "50" "x") "d" "u" "m" "y" ⟨[], []⟩
      = (⟨[], [[.s "d", .s "x", .q 50, .s "foobar", .s "u", .s "m", .s "y"]]⟩,
         .savedIncome) :=
  ⟨c1_commit_no_label_validation.1 "foobar" "50" "x" "d" "u" "m" "y" ⟨[], []⟩ 50
    (by decide) (by decide) (by decide),
   c1_commit_no_label_validation.2.1 "foobar" "50" "x" "d" "u" "m" "y" ⟨[], []⟩ 50
    (by decide) (by decide) (by decide)⟩

/-! ## Claim C10: payload encode/decode round trip -/

/-- C10. No enumerated category or source label contains an underscore,
and splitting an encoded payload prefix_label_amount_description on
underscores with at most 3 splits recovers the prefix, the label, the
amount string (numerically convertible to the amount) and the description
verbatim, even when the description itself contains underscores. -/
theorem c10_payload_round_trip :
    (∀ l : String, l ∈ categories.map Prod.fst → '_' ∉ l.data)
    ∧ (∀ l : String, l ∈ income_sources → '_' ∉ l.data)
    ∧ (∀ (tp label amt desc : String) (q : ℚ),
      (tp = "cat" ∨ tp = "inc") →
      (label ∈ categories.map Prod.fst ∨ label ∈ income_sources) →
      '_' ∉ amt.data → pyFloat amt = some q →
      (splitCh '_' 3 (callbackPayload tp label amt desc).data).map String.mk
        = [tp, label, amt, desc]
      ∧ pyFloat ([tp, label, amt, desc].getD 2 "") = some q) := by
  refine ⟨by decide, by decide, ?_⟩
  intro tp label amt desc q htp hlabel hamt hq
  have htpu : '_' ∉ tp.data := by
    rcases htp with h | h <;> subst h <;> decide
  have hlabu : '_' ∉ label.data := by
    rcases hlabel with h | h
    · exact (by decide : ∀ l : String, l ∈ categories.map Prod.fst → '_' ∉ l.data) label h
    · exact (by decide : ∀ l : String, l ∈ income_sources → '_' ∉ l.data) label h
  have hdata : (callbackPayload tp label amt desc).data
      = tp.data ++ '_' :: (label.data ++ '_' :: (amt.data ++ '_' :: desc.data)) := by
    simp [callbackPayload, String.data_append]
  constructor
  · rw [hdata, splitCh_step '_' 2 tp.data _ htpu,
      splitCh_step '_' 1 label.data _ hlabu, splitCh_step '_' 0 amt.data _ hamt]
    simp [string_mk_data, splitCh]
  · simpa using hq

/-- Witness for C10 with a description containing an underscore. -/
theorem c10_payload_round_trip_witness :
    (splitCh '_' 3 (callbackPayload "cat" "comida" "50" "a_b").data).map String.mk
      = ["cat", "comida", "50", "a_b"]
    ∧ pyFloat (["cat", "comida", "50", "a_b"].getD 2 "") = some 50 :=
  c10_payload_round_trip.2.2 "cat" "comida" "50" "a_b" 50 (Or.inl rfl)
    (Or.inl (by decide)) (by decide) (by decide)

/-! ## Claim C9: amount-only messages -/

/-- Counterexample to C9 as stated: an amount-only message is not parsed
into the full amount with an empty description: "50" parses with amount 5
and description "0". -/
theorem c9_counterexample :
    parse_expense "50" = some (5, "0")
    ∧ some ((5 : ℚ), "0") ≠ some ((50 : ℚ), "") := by
  constructor
  · decide
  · decide

/-! ## Engine evaluation lemmas -/

lemma firstSome_cons_some {α β} (x : α) (l : List α) (f : α → Option β) (v : β)
    (h : f x = some v) : firstSome (x :: l) f = some v := by
  simp [firstSome, h]

lemma clsSplits_ne_nil (p : Char → Bool) (cs : List Char) : clsSplits p cs ≠ [] := by
  cases cs <;> simp [clsSplits]

/-- On an input decomposed as a maximal class-satisfying front followed by
a rest whose head fails the class, the splits list ends with that split. -/
lemma clsSplits_concat (p : Char → Bool) (w rest : List Char)
    (hw : ∀ c ∈ w, p c = true) (hrest : ∀ c, rest.head? = some c → p c = false) :
    ∃ pl, clsSplits p (w ++ rest) = pl ++ [(w, rest)] ∧ pl.length = w.length := by
  induction w with
  | nil =>
    cases rest with
    | nil => exact ⟨[], rfl, rfl⟩
    | cons c t =>
      refine ⟨[], ?_, rfl⟩
      simp [clsSplits, hrest c rfl]
  | cons d w' ih =>
    obtain ⟨pl, hpl, hlen⟩ := ih (fun c hc => hw c (by simp [hc]))
    refine ⟨([], d :: (w' ++ rest)) :: pl.map (fun pr => (d :: pr.1, pr.2)), ?_, ?_⟩
    · simp [clsSplits, hw d (by simp), hpl]
    · simp [hlen]

lemma cls_step (p : Char → Bool) (c : Char) (cs : List Char) (caps : Caps)
    (k : List Char → Caps → Option Caps) (h : p c = true) :
    mmatch (.cls p) (c :: cs) caps k = k cs caps := by
  simp [mmatch, h]

lemma cls_fail (p : Char → Bool) (c : Char) (cs : List Char) (caps : Caps)
    (k : List Char → Caps → Option Caps) (h : p c = false) :
    mmatch (.cls p) (c :: cs) caps k = none := by
  simp [mmatch, h]

lemma opt_of_inner (r : RE) (cs : List Char) (caps : Caps)
    (k : List Char → Caps → Option Caps) (v : Caps)
    (h : mmatch r cs caps k = some v) : mmatch (.opt r) cs caps k = some v := by
  simp [mmatch, h]

lemma opt_of_fallback (r : RE) (cs : List Char) (caps : Caps)
    (k : List Char → Caps → Option Caps) (hnone : mmatch r cs caps k = none) :
    mmatch (.opt r) cs caps k = k cs caps := by
  simp [mmatch, hnone]

/-- Greedy star: if the continuation accepts after the maximal front, the
first alternative tried already succeeds. -/
lemma starCls_first (p : Char → Bool) (w rest : List Char) (caps : Caps)
    (k : List Char → Caps → Option Caps) (v : Caps)
    (hw : ∀ c ∈ w, p c = true) (hrest : ∀ c, rest.head? = some c → p c = false)
    (hk : k rest caps = some v) :
    mmatch (.starCls p) (w ++ rest) caps k = some v := by
  obtain ⟨pl, hpl, _⟩ := clsSplits_concat p w rest hw hrest
  simp only [mmatch, hpl, List.reverse_append, List.reverse_cons, List.reverse_nil,
    List.nil_append, List.singleton_append]
  exact firstSome_cons_some _ _ _ _ hk

/-- Greedy plus with a nonempty maximal front: the longest split is tried
first. -/
lemma plusCls_first (p : Char → Bool) (w rest : List Char) (caps : Caps)
    (k : List Char → Caps → Option Caps) (v : Caps)
    (hw : ∀ c ∈ w, p c = true) (hne : w ≠ [])
    (hrest : ∀ c, rest.head? = some c → p c = false)
    (hk : k rest caps = some v) :
    mmatch (.plusCls p) (w ++ rest) caps k = some v := by
  obtain ⟨pl, hpl, hlen⟩ := clsSplits_concat p w rest hw hrest
  have hplne : pl ≠ [] := by
    intro h
    apply hne
    rw [h] at hlen
    exact List.length_eq_zero.mp hlen.symm
  obtain ⟨y, pl', hy⟩ := List.exists_cons_of_ne_nil hplne
  subst hy
  simp only [mmatch, hpl, List.cons_append, List.drop_one, List.tail_cons,
    List.reverse_append, List.reverse_cons, List.reverse_nil, List.nil_append,
    List.singleton_append]
  exact firstSome_cons_some _ _ _ _ hk

lemma plusCls_nil (p : Char → Bool) (caps : Caps) (k : List Char → Caps → Option Caps) :
    mmatch (.plusCls p) [] caps k = none := rfl

lemma plusCls_fail_head (p : Char → Bool) (c : Char) (cs : List Char) (caps : Caps)
    (k : List Char → Caps → Option Caps) (h : p c = false) :
    mmatch (.plusCls p) (c :: cs) caps k = none := by
  simp [mmatch, clsSplits, h, firstSome]

/-- A star whose input head fails the class consumes nothing. -/
lemma starCls_skip (p : Char → Bool) (cs : List Char) (caps : Caps)
    (k : List Char → Caps → Option Caps)
    (h : ∀ c, cs.head? = some c → p c = false) :
    mmatch (.starCls p) cs caps k = k cs caps := by
  cases cs with
  | nil =>
    show firstSome [([], [])] _ = _
    simp only [firstSome]
    cases k [] caps <;> rfl
  | cons c t =>
    have hc := h c rfl
    show firstSome ((clsSplits p (c :: t)).reverse) _ = _
    simp only [clsSplits, hc, Bool.false_eq_true, if_neg, not_false_iff,
      List.reverse_cons, List.reverse_nil, List.nil_append, firstSome]
    cases k (c :: t) caps <;> rfl

lemma seq_unfold (r1 r2 : RE) (cs : List Char) (caps : Caps)
    (k : List Char → Caps → Option Caps) :
    mmatch (.seq r1 r2) cs caps k
      = mmatch r1 cs caps (fun cs' caps' => mmatch r2 cs' caps' k) := rfl

lemma grp_unfold (i : Nat) (r : RE) (cs : List Char) (caps : Caps)
    (k : List Char → Caps → Option Caps) :
    mmatch (.grp i r) cs caps k
      = mmatch r cs caps (fun cs' caps' =>
          k cs' ((i, cs.take (cs.length - cs'.length)) :: caps')) := rfl

lemma litsCI_self (s : List Char) (rest : List Char) (caps : Caps)
    (k : List Char → Caps → Option Caps) :
    mmatch (litsCI s) (s ++ rest) caps k = k rest caps := by
  induction s with
  | nil => rfl
  | cons c t ih =>
    exact (cls_step (fun x => pyLower x == pyLower c) c (t ++ rest) caps
      (fun cs' caps' => mmatch (litsCI t) cs' caps' k) (by simp)).trans ih

lemma litsCI_fail (c0 : Char) (s : List Char) (c : Char) (cs : List Char) (caps : Caps)
    (k : List Char → Caps → Option Caps) (h : (pyLower c == pyLower c0) = false) :
    mmatch (litsCI (c0 :: s)) (c :: cs) caps k = none :=
  cls_fail (fun x => pyLower x == pyLower c0) c cs caps
    (fun cs' caps' => mmatch (litsCI s) cs' caps' k) h

lemma take_app_self {α} (l r : List α) :
    (l ++ r).take ((l ++ r).length - r.length) = l := by
  rw [List.length_append, Nat.add_sub_cancel]
  exact List.take_left l r

/-! ## Character facts -/

lemma isDigit_le_nine {c : Char} (h : c.isDigit = true) : c ≤ '9' := by
  have h2 := h
  unfold Char.isDigit at h2
  simp only [Bool.and_eq_true, decide_eq_true_eq] at h2
  exact h2.2

lemma isDigit_ge_zero {c : Char} (h : c.isDigit = true) : '0' ≤ c := by
  have h2 := h
  unfold Char.isDigit at h2
  simp only [Bool.and_eq_true, decide_eq_true_eq] at h2
  exact h2.1

lemma ne_of_isDigit {c x : Char} (h : c.isDigit = true) (hx : x.isDigit = false) :
    c ≠ x := by
  intro he
  rw [he] at h
  rw [h] at hx
  exact Bool.noConfusion hx

lemma digit_not_space {c : Char} (h : c.isDigit = true) : pySpace c = false := by
  cases hc : pySpace c
  · rfl
  · exfalso
    have ht : c = ' ' ∨ c = '\t' ∨ c = '\n' ∨ c = '\r' ∨ c = '\x0b' ∨ c = '\x0c' := by
      simpa [pySpace, or_assoc] using hc
    rcases ht with rfl | rfl | rfl | rfl | rfl | rfl <;> simp [Char.isDigit] at h

lemma digit_not_sep {c : Char} (h : c.isDigit = true) : isSepCh c = false := by
  cases hc : isSepCh c
  · rfl
  · exfalso
    have ht : c = ',' ∨ c = '.' := by simpa [isSepCh] using hc
    rcases ht with rfl | rfl <;> simp [Char.isDigit] at h

lemma sep_not_digit {c : Char} (h : isSepCh c = true) : c.isDigit = false := by
  simp only [isSepCh, Bool.or_eq_true, beq_iff_eq] at h
  rcases h with rfl | rfl <;> rfl

lemma digit_pyLower {c : Char} (h : c.isDigit = true) : pyLower c = c := by
  have h9 := isDigit_le_nine h
  have hA : ¬ ('A' ≤ c ∧ c ≤ 'Z') := by
    rintro ⟨hA, -⟩
    exact absurd (le_trans hA h9) (by decide)
  have hAg : ¬ ('À' ≤ c ∧ c ≤ 'Þ' ∧ c ≠ '×') := by
    rintro ⟨hA, -, -⟩
    exact absurd (le_trans hA h9) (by decide)
  simp [pyLower, hA, hAg]

lemma digit_notNl {c : Char} (h : c.isDigit = true) : notNl c = true := by
  simp only [notNl, bne_iff_ne, ne_eq]
  exact ne_of_isDigit h (by rfl)

/-! ## List helper facts -/

lemma dropWhile_eq_self_of_head {α} (p : α → Bool) (cs : List α)
    (h : ∀ c, cs.head? = some c → p c = false) : cs.dropWhile p = cs := by
  cases cs with
  | nil => rfl
  | cons c t => simp [List.dropWhile_cons, h c rfl]

lemma stripWs_id (cs : List Char)
    (hh : ∀ c, cs.head? = some c → pySpace c = false)
    (hl : ∀ c, cs.getLast? = some c → pySpace c = false) :
    stripWs cs = cs := by
  unfold stripWs
  rw [dropWhile_eq_self_of_head pySpace cs hh]
  rw [dropWhile_eq_self_of_head pySpace cs.reverse
    (by intro c hc; apply hl; rwa [List.head?_reverse] at hc)]
  exact List.reverse_reverse cs

lemma all_of_takeWhile {α} (p : α → Bool) (l : List α) :
    ∀ c ∈ l.takeWhile p, p c = true := by
  induction l with
  | nil => simp
  | cons a t ih =>
    intro c hc
    by_cases hp : p a = true
    · rw [List.takeWhile_cons, if_pos hp] at hc
      rcases List.mem_cons.mp hc with rfl | hc2
      · exact hp
      · exact ih c hc2
    · rw [List.takeWhile_cons, if_neg hp] at hc
      exact absurd hc (List.not_mem_nil c)

/-! ## Running the parser on structured input -/


lemma numParts_ne_nil {a : List Char} (h : NumParts a) : a ≠ [] := by
  rcases h with ⟨hne, -⟩ | ⟨d1, s, d2, heq, hd1ne, -⟩
  · exact hne
  · subst heq
    simp

lemma numParts_head_digit {a : List Char} (h : NumParts a) :
    ∀ c, a.head? = some c → c.isDigit = true := by
  intro c hc
  rcases h with ⟨hne, hdig⟩ | ⟨d1, s, d2, heq, hd1ne, hd1, -, -, -⟩
  · cases a with
    | nil => exact absurd hc (by simp)
    | cons x t =>
      simp only [List.head?_cons, Option.some.injEq] at hc
      subst hc
      exact hdig _ (List.mem_cons_self _ _)
  · subst heq
    obtain ⟨e, d1', rfl⟩ := List.exists_cons_of_ne_nil hd1ne
    simp only [List.cons_append, List.head?_cons, Option.some.injEq] at hc
    subst hc
    exact hd1 _ (List.mem_cons_self _ _)

/-- The optional decimal tail of the amount group fails on input whose
head is neither a separator nor a digit. -/
lemma numTail_fail (rest : List Char) (caps : Caps) (k : List Char → Caps → Option Caps)
    (hrest : ∀ c, rest.head? = some c → (c.isDigit = false ∧ isSepCh c = false)) :
    mmatch (.seq (.opt (.cls isSepCh)) (.plusCls Char.isDigit)) rest caps k = none := by
  rw [seq_unfold]
  cases rest with
  | nil =>
    rw [opt_of_fallback _ _ _ _ (by rfl)]
    exact plusCls_nil _ _ _
  | cons c t =>
    obtain ⟨hcd, hcs⟩ := hrest c rfl
    rw [opt_of_fallback _ _ _ _ (cls_fail _ _ _ _ _ hcs)]
    exact plusCls_fail_head _ _ _ _ _ hcd

/-- Running the amount group on a full numeral followed by a rest whose
head is neither digit nor separator: the group consumes exactly the
numeral on its first-priority alternative. -/
lemma numRE_run (a rest : List Char) (caps : Caps) (k : List Char → Caps → Option Caps)
    (v : Caps) (ha : NumParts a)
    (hrest : ∀ c, rest.head? = some c → (c.isDigit = false ∧ isSepCh c = false))
    (hk : k rest caps = some v) :
    mmatch numRE (a ++ rest) caps k = some v := by
  rw [show numRE = .seq (.plusCls Char.isDigit)
      (.opt (.seq (.opt (.cls isSepCh)) (.plusCls Char.isDigit))) from rfl, seq_unfold]
  rcases ha with ⟨hne, hdig⟩ | ⟨d1, s, d2, heq, hd1ne, hd1, hs, hd2ne, hd2⟩
  · apply plusCls_first _ a rest _ _ _ hdig hne (fun c hc => (hrest c hc).1)
    show mmatch (.opt (.seq (.opt (.cls isSepCh)) (.plusCls Char.isDigit))) rest caps k = some v
    rw [opt_of_fallback _ _ _ _ (numTail_fail rest caps k hrest)]
    exact hk
  · subst heq
    rw [List.append_assoc, List.cons_append]
    apply plusCls_first _ d1 (s :: (d2 ++ rest)) _ _ _ hd1 hd1ne
      (by intro c hc; simp only [List.head?_cons, Option.some.injEq] at hc; subst hc
          exact sep_not_digit hs)
    show mmatch (.opt (.seq (.opt (.cls isSepCh)) (.plusCls Char.isDigit)))
      (s :: (d2 ++ rest)) caps k = some v
    apply opt_of_inner
    rw [seq_unfold]
    apply opt_of_inner
    rw [cls_step _ s _ _ _ hs]
    exact plusCls_first _ d2 rest _ _ _ hd2 hd2ne (fun c hc => (hrest c hc).1) hk

/-- Greedy plus consuming the whole remaining input. -/
lemma plusCls_all (p : Char → Bool) (w : List Char) (caps : Caps)
    (k : List Char → Caps → Option Caps) (v : Caps)
    (hw : ∀ c ∈ w, p c = true) (hne : w ≠ []) (hk : k [] caps = some v) :
    mmatch (.plusCls p) w caps k = some v := by
  have h := plusCls_first p w [] caps k v hw hne (by intro c hc; exact absurd hc (by simp)) hk
  simpa using h

/-- The shared amount-description body on input "a d" with a a numeral
and d a description whose head is neither whitespace nor the euro sign:
group 1 captures a, group 2 captures d. -/
lemma amtDescEuro_run (a d : List Char) (caps : Caps) (k : List Char → Caps → Option Caps)
    (v : Caps) (ha : NumParts a) (hdne : d ≠ [])
    (hdh : ∀ c, d.head? = some c → (pySpace c = false ∧ isEuro c = false))
    (hdnl : ∀ c ∈ d, notNl c = true)
    (hk : k [] ((2, d) :: (1, a) :: caps) = some v) :
    mmatch (amtDescRE (.opt (.cls isEuro))) (a ++ ' ' :: d) caps k = some v := by
  rw [show amtDescRE (.opt (.cls isEuro)) = .seq (.grp 1 numRE)
      (.seq (.starCls pySpace) (.seq (.opt (.cls isEuro))
        (.seq (.starCls pySpace) (.grp 2 (.plusCls notNl))))) from rfl]
  rw [seq_unfold, grp_unfold]
  apply numRE_run a (' ' :: d) caps _ v ha
    (by intro c hc; simp only [List.head?_cons, Option.some.injEq] at hc; subst hc
        exact ⟨by decide, by decide⟩)
  show mmatch (.seq (.starCls pySpace) (.seq (.opt (.cls isEuro))
      (.seq (.starCls pySpace) (.grp 2 (.plusCls notNl)))))
    (' ' :: d) ((1, (a ++ ' ' :: d).take ((a ++ ' ' :: d).length - (' ' :: d).length)) :: caps)
    k = some v
  rw [take_app_self a (' ' :: d)]
  rw [seq_unfold]
  rw [show (' ' :: d) = [' '] ++ d from rfl]
  apply starCls_first pySpace [' '] d _ _ _ (by intro c hc; simp at hc; subst hc; rfl)
    (fun c hc => (hdh c hc).1)
  show mmatch (.seq (.opt (.cls isEuro)) (.seq (.starCls pySpace) (.grp 2 (.plusCls notNl))))
    d ((1, a) :: caps) k = some v
  rw [seq_unfold]
  obtain ⟨c0, d', rfl⟩ := List.exists_cons_of_ne_nil hdne
  rw [opt_of_fallback _ _ _ _ (cls_fail _ _ _ _ _ (hdh c0 rfl).2)]
  show mmatch (.seq (.starCls pySpace) (.grp 2 (.plusCls notNl)))
    (c0 :: d') ((1, a) :: caps) k = some v
  rw [seq_unfold]
  rw [starCls_skip _ _ _ _
    (by intro c hc; simp only [List.head?_cons, Option.some.injEq] at hc; subst hc
        exact (hdh c0 rfl).1)]
  rw [grp_unfold]
  apply plusCls_all notNl (c0 :: d') _ _ v hdnl (by simp)
  show k [] ((2, (c0 :: d').take ((c0 :: d').length - ([] : List Char).length))
    :: (1, a) :: caps) = some v
  rw [List.length_nil, Nat.sub_zero, List.take_length]
  exact hk

/-- Pattern 1 on "a d": the match succeeds with captures a and d. -/
lemma pattern1_run (a d : List Char) (ha : NumParts a) (hdne : d ≠ [])
    (hdh : ∀ c, d.head? = some c → (pySpace c = false ∧ isEuro c = false))
    (hdnl : ∀ c ∈ d, notNl c = true) :
    reMatch pattern1 (a ++ ' ' :: d) = some [(2, d), (1, a)] := by
  unfold reMatch pattern1
  exact amtDescEuro_run a d [] _ _ ha hdne hdh hdnl rfl

lemma head?_append_left {α} (l r : List α) (h : l ≠ []) :
    (l ++ r).head? = l.head? := by
  cases l with
  | nil => exact absurd rfl h
  | cons c t => rfl

/-- An income pattern with the optional-euro body on input "kw a d". -/
lemma incomeEuro_run (kw a d : List Char) (ha : NumParts a) (hdne : d ≠ [])
    (hdh : ∀ c, d.head? = some c → (pySpace c = false ∧ isEuro c = false))
    (hdnl : ∀ c ∈ d, notNl c = true) :
    reMatch (incomeRE kw (.opt (.cls isEuro))) (kw ++ ' ' :: (a ++ ' ' :: d))
      = some [(2, d), (1, a)] := by
  unfold reMatch incomeRE
  rw [seq_unfold, litsCI_self kw (' ' :: (a ++ ' ' :: d)) [] _]
  rw [seq_unfold]
  rw [show (' ' :: (a ++ ' ' :: d)) = [' '] ++ (a ++ ' ' :: d) from rfl]
  apply plusCls_first pySpace [' '] (a ++ ' ' :: d) _ _ _
    (by intro c hc; simp at hc; subst hc; rfl) (by simp)
  · intro c hc
    rw [head?_append_left a _ (numParts_ne_nil ha)] at hc
    exact digit_not_space (numParts_head_digit ha c hc)
  · exact amtDescEuro_run a d [] _ _ ha hdne hdh hdnl rfl

/-! ## Claim C2: parse on "{a} {d}" and "ingreso {a} {d}" -/


lemma ne_nil_of_isEmpty_false {α} (l : List α) (h : l.isEmpty = false) : l ≠ [] := by
  cases l with
  | nil => exact absurd h (by simp)
  | cons a t => simp

lemma numShapeB_parts (cs : List Char) (h : numShapeB cs = true) : NumParts cs := by
  have hsplit : cs.takeWhile Char.isDigit ++ cs.dropWhile Char.isDigit = cs :=
    List.takeWhile_append_dropWhile Char.isDigit cs
  simp only [numShapeB, Bool.and_eq_true, Bool.not_eq_true'] at h
  obtain ⟨hne, hrest⟩ := h
  cases hr : cs.dropWhile Char.isDigit with
  | nil =>
    left
    rw [hr, List.append_nil] at hsplit
    refine ⟨by rw [← hsplit]; exact ne_nil_of_isEmpty_false _ hne, ?_⟩
    intro c hc
    rw [← hsplit] at hc
    exact all_of_takeWhile Char.isDigit cs c hc
  | cons c t =>
    right
    rw [hr] at hrest hsplit
    simp only [Bool.and_eq_true, Bool.not_eq_true', List.all_eq_true] at hrest
    obtain ⟨⟨hsep, htne⟩, hall⟩ := hrest
    exact ⟨cs.takeWhile Char.isDigit, c, t, hsplit.symm, ne_nil_of_isEmpty_false _ hne,
      all_of_takeWhile Char.isDigit cs, hsep, ne_nil_of_isEmpty_false _ htne,
      fun x hx => hall x hx⟩


lemma goodDescB_spec (d : List Char) (h : goodDescB d = true) :
    d ≠ [] ∧ (∀ c, d.head? = some c → (pySpace c = false ∧ isEuro c = false))
    ∧ (∀ c, d.getLast? = some c → pySpace c = false)
    ∧ (∀ c ∈ d, notNl c = true) := by
  simp only [goodDescB, Bool.and_eq_true, Bool.not_eq_true', List.all_eq_true] at h
  obtain ⟨⟨⟨hne, hh⟩, hl⟩, hnl⟩ := h
  refine ⟨ne_nil_of_isEmpty_false _ hne, ?_, ?_, hnl⟩
  · intro c hc
    rw [hc] at hh
    simpa only [Bool.and_eq_true, Bool.not_eq_true'] using hh
  · intro c hc
    rw [hc] at hl
    simpa only [Bool.not_eq_true'] using hl

lemma getLast?_append_right {α} (l r : List α) (h : r ≠ []) :
    (l ++ r).getLast? = r.getLast? :=
  List.getLast?_append_of_ne_nil l h

/-- An income pattern whose keyword starts with c1 fails on input whose
head is not c1 (case-insensitively). -/
lemma tryIncomePattern_fail_head (s : List Char) (mid : RE) (c1 c0 : Char)
    (rest : List Char) (h : (pyLower c0 == pyLower c1) = false) :
    tryIncomePattern (incomeRE (c1 :: s) mid) (c0 :: rest) = none := by
  unfold tryIncomePattern reMatch incomeRE
  rw [seq_unfold, litsCI_fail c1 s c0 rest [] _ h]

/-- On a message whose first character is a digit, no income pattern can
match: all income keywords are anchored at a letter. -/
lemma parse_income_none_digit_head (c0 : Char) (rest : List Char)
    (hc0 : c0.isDigit = true) (msg : String)
    (hmsg : stripWs msg.data = c0 :: rest) :
    parse_income msg = none := by
  have hlower : pyLower c0 = c0 := digit_pyLower hc0
  have hi : (pyLower c0 == pyLower 'i') = false := by
    rw [hlower, show pyLower 'i' = 'i' from by decide]
    exact beq_eq_false_iff_ne.mpr (ne_of_isDigit hc0 (by decide))
  have hcc : (pyLower c0 == pyLower 'c') = false := by
    rw [hlower, show pyLower 'c' = 'c' from by decide]
    exact beq_eq_false_iff_ne.mpr (ne_of_isDigit hc0 (by decide))
  have he : (pyLower c0 == pyLower 'e') = false := by
    rw [hlower, show pyLower 'e' = 'e' from by decide]
    exact beq_eq_false_iff_ne.mpr (ne_of_isDigit hc0 (by decide))
  unfold parse_income incomePatterns
  rw [hmsg]
  simp only [firstSome,
    tryIncomePattern_fail_head _ _ 'i' c0 rest hi,
    tryIncomePattern_fail_head _ _ 'c' c0 rest hcc,
    tryIncomePattern_fail_head _ _ 'e' c0 rest he]

/-- C2 amended. For a positive decimal numeral a and a description d that
is non-empty, has no leading or trailing whitespace, does not start with
the euro sign, and contains no newline, "{a} {d}" parses as an expense
with amount a and description d, and "ingreso {a} {d}" parses as an
income with amount a and description d. -/
theorem c2_parse_shapes :
    ∀ (a d : String) (q : ℚ),
      numShapeB a.data = true → pyFloatL (pyReplaceComma a.data) = some q → 0 < q →
      goodDescB d.data = true →
      parse_message (a ++ " " ++ d) = some (.expense, q, d)
      ∧ parse_message ("ingreso " ++ a ++ " " ++ d) = some (.income, q, d) := by
  intro a d q hnum hq hpos hgood
  have hparts := numShapeB_parts a.data hnum
  obtain ⟨hdne, hdh, hdl, hdnl⟩ := goodDescB_spec d.data hgood
  have hane : a.data ≠ [] := numParts_ne_nil hparts
  have hahead : ∀ c, a.data.head? = some c → c.isDigit = true := numParts_head_digit hparts
  obtain ⟨c0, a', ha'⟩ := List.exists_cons_of_ne_nil hane
  have hc0 : c0.isDigit = true := hahead c0 (by rw [ha']; rfl)
  have hdata1 : (a ++ " " ++ d).data = a.data ++ ' ' :: d.data := by
    simp [String.data_append]
  have hdata2 : ("ingreso " ++ a ++ " " ++ d).data
      = ['i', 'n', 'g', 'r', 'e', 's', 'o'] ++ ' ' :: (a.data ++ ' ' :: d.data) := by
    simp [String.data_append]
  have hlast1 : ∀ c, (a.data ++ ' ' :: d.data).getLast? = some c → pySpace c = false := by
    intro c hc
    rw [getLast?_append_right a.data (' ' :: d.data) (by simp),
      show (' ' :: d.data) = [' '] ++ d.data from rfl,
      getLast?_append_right [' '] d.data hdne] at hc
    exact hdl c hc
  have hstrip1 : stripWs (a.data ++ ' ' :: d.data) = a.data ++ ' ' :: d.data := by
    apply stripWs_id
    · intro c hc
      rw [head?_append_left a.data _ hane] at hc
      exact digit_not_space (hahead c hc)
    · exact hlast1
  have hmatch1 : reMatch pattern1 (a.data ++ ' ' :: d.data) = some [(2, d.data), (1, a.data)] :=
    pattern1_run a.data d.data hparts hdne hdh hdnl
  have hexp : parse_expense (a ++ " " ++ d) = some (q, d) := by
    unfold parse_expense expensePatterns
    rw [hdata1, hstrip1]
    apply firstSome_cons_some
    unfold tryPattern
    rw [hmatch1]
    show (match pyFloatL (pyReplaceComma a.data) with
      | some amt => some (amt, String.mk (stripWs d.data))
      | none =>
        match pyFloatL (pyReplaceComma d.data) with
        | some amt => some (amt, String.mk (stripWs a.data))
        | none => none) = some (q, d)
    rw [hq, stripWs_id d.data (fun c hc => (hdh c hc).1) hdl, string_mk_data]
  have hincnone : parse_income (a ++ " " ++ d) = none := by
    apply parse_income_none_digit_head c0 (a' ++ ' ' :: d.data) hc0
    rw [hdata1, hstrip1, ha', List.cons_append]
  refine ⟨?_, ?_⟩
  · simp [parse_message, hincnone, hexp]
  · have hstrip2 : stripWs (['i', 'n', 'g', 'r', 'e', 's', 'o'] ++ ' ' :: (a.data ++ ' ' :: d.data))
        = ['i', 'n', 'g', 'r', 'e', 's', 'o'] ++ ' ' :: (a.data ++ ' ' :: d.data) := by
      apply stripWs_id
      · intro c hc
        simp only [List.cons_append, List.head?_cons, Option.some.injEq] at hc
        subst hc
        rfl
      · intro c hc
        rw [getLast?_append_right _ (' ' :: (a.data ++ ' ' :: d.data)) (by simp),
          show (' ' :: (a.data ++ ' ' :: d.data)) = [' '] ++ (a.data ++ ' ' :: d.data) from rfl,
          getLast?_append_right [' '] _ (by simp)] at hc
        exact hlast1 c hc
    have hmatch2 : reMatch (incomeRE ['i', 'n', 'g', 'r', 'e', 's', 'o'] (.opt (.cls isEuro)))
        (['i', 'n', 'g', 'r', 'e', 's', 'o'] ++ ' ' :: (a.data ++ ' ' :: d.data))
        = some [(2, d.data), (1, a.data)] :=
      incomeEuro_run _ a.data d.data hparts hdne hdh hdnl
    have hincome : parse_income ("ingreso " ++ a ++ " " ++ d) = some (q, d) := by
      unfold parse_income incomePatterns
      rw [hdata2, hstrip2]
      apply firstSome_cons_some
      unfold tryIncomePattern
      rw [hmatch2]
      show (match pyFloatL (pyReplaceComma a.data) with
        | some amt => some (amt, String.mk (stripWs d.data))
        | none => none) = some (q, d)
      rw [hq, stripWs_id d.data (fun c hc => (hdh c hc).1) hdl, string_mk_data]
    simp [parse_message, hincome]

/-- Witness for C2 with the decimal-comma numeral 3,50 and description
café. -/
theorem c2_parse_shapes_witness :
    parse_message ("3,50" ++ " " ++ "café") = some (.expense, 7 / 2, "café")
    ∧ parse_message ("ingreso " ++ "3,50" ++ " " ++ "café") = some (.income, 7 / 2, "café") :=
  c2_parse_shapes "3,50" "café" (7 / 2) (by decide)
    (by rw [show pyFloatL (pyReplaceComma "3,50".data)
          = some ((3 : ℚ) + 50 / 10 ^ 2) from rfl]
        norm_num)
    (by norm_num) (by decide)

/-! ## Declarative matching and soundness of the engine -/



lemma firstSome_eq_some {α β} (l : List α) (f : α → Option β) (v : β)
    (h : firstSome l f = some v) : ∃ x ∈ l, f x = some v := by
  induction l with
  | nil => exact absurd h (by simp [firstSome])
  | cons x xs ih =>
    simp only [firstSome] at h
    cases hx : f x with
    | some w =>
      rw [hx] at h
      exact ⟨x, List.mem_cons_self _ _, hx.trans h⟩
    | none =>
      rw [hx] at h
      obtain ⟨y, hy, hfy⟩ := ih h
      exact ⟨y, List.mem_cons_of_mem _ hy, hfy⟩

lemma clsSplits_mem (p : Char → Bool) (cs : List Char) (pr : List Char × List Char)
    (h : pr ∈ clsSplits p cs) : cs = pr.1 ++ pr.2 ∧ ∀ c ∈ pr.1, p c = true := by
  induction cs generalizing pr with
  | nil =>
    simp only [clsSplits, List.mem_singleton] at h
    subst h
    exact ⟨rfl, by simp⟩
  | cons c t ih =>
    simp only [clsSplits, List.mem_cons] at h
    rcases h with rfl | h2
    · exact ⟨rfl, by simp⟩
    · by_cases hp : p c = true
      · rw [if_pos hp] at h2
        obtain ⟨pr', hpr', rfl⟩ := List.mem_map.mp h2
        obtain ⟨heq, hall⟩ := ih pr' hpr'
        refine ⟨by simp [heq], ?_⟩
        intro x hx
        rcases List.mem_cons.mp hx with rfl | hx2
        · exact hp
        · exact hall x hx2
      · rw [if_neg hp] at h2
        exact absurd h2 (List.not_mem_nil pr)

lemma clsSplits_drop_mem (p : Char → Bool) (cs : List Char) (pr : List Char × List Char)
    (h : pr ∈ (clsSplits p cs).drop 1) :
    pr.1 ≠ [] ∧ pr ∈ clsSplits p cs := by
  cases cs with
  | nil => simp [clsSplits] at h
  | cons c t =>
    simp only [clsSplits, List.drop_one, List.tail_cons] at h
    by_cases hp : p c = true
    · rw [if_pos hp] at h
      obtain ⟨pr', hpr', rfl⟩ := List.mem_map.mp h
      refine ⟨by simp, ?_⟩
      simp only [clsSplits, if_pos hp, List.mem_cons]
      right
      exact List.mem_map_of_mem _ hpr'
    · rw [if_neg hp] at h
      exact absurd h (List.not_mem_nil pr)

/-- Soundness of the matcher: a successful run decomposes the input into
a consumed part in the declarative relation and a suffix passed to the
continuation, with the group captures of the consumed part prepended. -/
lemma mmatch_sound (r : RE) :
    ∀ (cs : List Char) (caps : Caps) (k : List Char → Caps → Option Caps) (v : Caps),
      mmatch r cs caps k = some v →
      ∃ pre suf ext, cs = pre ++ suf ∧ REMatch r pre ext ∧ k suf (ext ++ caps) = some v := by
  induction r with
  | eps =>
    intro cs caps k v h
    exact ⟨[], cs, [], rfl, .eps, h⟩
  | cls p =>
    intro cs caps k v h
    cases cs with
    | nil => exact absurd h (by simp [mmatch])
    | cons c t =>
      by_cases hp : p c = true
      · rw [cls_step _ _ _ _ _ hp] at h
        exact ⟨[c], t, [], rfl, .cls hp, h⟩
      · rw [cls_fail _ _ _ _ _ (by simpa using hp)] at h
        exact absurd h (by simp)
  | seq r1 r2 ih1 ih2 =>
    intro cs caps k v h
    rw [seq_unfold] at h
    obtain ⟨pre1, suf1, ext1, heq1, hm1, hk1⟩ := ih1 cs caps _ v h
    obtain ⟨pre2, suf2, ext2, heq2, hm2, hk2⟩ := ih2 suf1 (ext1 ++ caps) k v hk1
    exact ⟨pre1 ++ pre2, suf2, ext2 ++ ext1,
      by rw [heq1, heq2, List.append_assoc], .seq hm1 hm2, by rwa [List.append_assoc]⟩
  | opt r ih =>
    intro cs caps k v h
    simp only [mmatch] at h
    cases hm : mmatch r cs caps k with
    | some w =>
      rw [hm] at h
      obtain ⟨pre, suf, ext, heq, hrm, hk⟩ := ih cs caps k w hm
      exact ⟨pre, suf, ext, heq, .optSome hrm, hk.trans h⟩
    | none =>
      rw [hm] at h
      exact ⟨[], cs, [], rfl, .optNone, h⟩
  | starCls p =>
    intro cs caps k v h
    simp only [mmatch] at h
    obtain ⟨pr, hmem, hf⟩ := firstSome_eq_some _ _ _ h
    rw [List.mem_reverse] at hmem
    obtain ⟨heq, hall⟩ := clsSplits_mem p cs pr hmem
    exact ⟨pr.1, pr.2, [], heq, .star hall, hf⟩
  | plusCls p =>
    intro cs caps k v h
    simp only [mmatch] at h
    obtain ⟨pr, hmem, hf⟩ := firstSome_eq_some _ _ _ h
    rw [List.mem_reverse] at hmem
    obtain ⟨hne, hmem2⟩ := clsSplits_drop_mem p cs pr hmem
    obtain ⟨heq, hall⟩ := clsSplits_mem p cs pr hmem2
    exact ⟨pr.1, pr.2, [], heq, .plus hne hall, hf⟩
  | lazyPlusCls p =>
    intro cs caps k v h
    simp only [mmatch] at h
    obtain ⟨pr, hmem, hf⟩ := firstSome_eq_some _ _ _ h
    obtain ⟨hne, hmem2⟩ := clsSplits_drop_mem p cs pr hmem
    obtain ⟨heq, hall⟩ := clsSplits_mem p cs pr hmem2
    exact ⟨pr.1, pr.2, [], heq, .lazy hne hall, hf⟩
  | grp i r ih =>
    intro cs caps k v h
    rw [grp_unfold] at h
    obtain ⟨pre, suf, ext, heq, hrm, hk⟩ := ih cs caps _ v h
    refine ⟨pre, suf, (i, pre) :: ext, heq, .grp hrm, ?_⟩
    rw [heq, take_app_self] at hk
    simpa using hk

/-- A group-free regex contributes no capture entries. -/
lemma REMatch_groupFree {r : RE} {l : List Char} {e : Caps}
    (hg : groupFree r = true) (h : REMatch r l e) : e = [] := by
  induction h with
  | eps => rfl
  | cls _ => rfl
  | seq h1 h2 ih1 ih2 =>
    simp only [groupFree, Bool.and_eq_true] at hg
    rw [ih1 hg.1, ih2 hg.2]
    rfl
  | optSome h ih => exact ih hg
  | optNone => rfl
  | star _ => rfl
  | plus _ _ => rfl
  | lazy _ _ => rfl
  | grp h ih => exact absurd hg (by simp [groupFree])

lemma groupFree_litsCI (s : List Char) : groupFree (litsCI s) = true := by
  induction s with
  | nil => rfl
  | cons c t ih => simp [litsCI, groupFree, litCI] at ih ⊢; exact ih

/-! ## Inversion lemmas for the concrete patterns -/

lemma REMatch_numRE {l : List Char} {e : Caps} (h : REMatch numRE l e) :
    NumParts l ∧ e = [] := by
  rw [show numRE = .seq (.plusCls Char.isDigit)
      (.opt (.seq (.opt (.cls isSepCh)) (.plusCls Char.isDigit))) from rfl] at h
  cases h with
  | seq h1 h2 =>
    rename_i l1 l2 e1 e2
    cases h1 with
    | plus hne1 hall1 =>
      cases h2 with
      | optNone =>
        refine ⟨Or.inl ⟨by simpa using hne1, by simpa using hall1⟩, by simp⟩
      | optSome h3 =>
        cases h3 with
        | seq h4 h5 =>
          rename_i l4 l5 e4 e5
          cases h5 with
          | plus hne5 hall5 =>
            cases h4 with
            | optNone =>
              refine ⟨Or.inl ⟨by simp [hne1], ?_⟩, by simp⟩
              intro c hc
              simp only [List.nil_append, List.mem_append] at hc
              rcases hc with hc | hc
              · exact hall1 c hc
              · exact hall5 c hc
            | optSome h6 =>
              cases h6 with
              | cls hsep =>
                rename_i s
                refine ⟨Or.inr ⟨l1, s, l5, by simp, hne1, hall1, hsep, hne5, hall5⟩, by simp⟩

lemma REMatch_amtDescRE {mid : RE} (hgmid : groupFree mid = true)
    {l : List Char} {e : Caps} (h : REMatch (amtDescRE mid) l e) :
    ∃ g1 g2, e = [(2, g2), (1, g1)] ∧ NumParts g1 ∧ g2 ≠ []
      ∧ (∀ c ∈ g2, notNl c = true) := by
  rw [show amtDescRE mid = .seq (.grp 1 numRE) (.seq (.starCls pySpace)
      (.seq mid (.seq (.starCls pySpace) (.grp 2 (.plusCls notNl))))) from rfl] at h
  cases h with
  | seq hA hB =>
    cases hA with
    | grp hnum =>
      obtain ⟨hparts, rfl⟩ := REMatch_numRE hnum
      cases hB with
      | seq hws hC =>
        cases hws with
        | star hallw =>
          cases hC with
          | seq hmid hD =>
            have hem := REMatch_groupFree hgmid hmid
            subst hem
            cases hD with
            | seq hws2 hG2 =>
              cases hws2 with
              | star hallw2 =>
                cases hG2 with
                | grp hplus =>
                  cases hplus with
                  | plus hne2 hall2 =>
                    exact ⟨_, _, by simp, hparts, hne2, hall2⟩

/-- Full inversion of a successful match of an amount-first pattern:
the captures are exactly group 1 (a numeral) and group 2. -/
lemma amtDescRE_inv (mid : RE) (hgmid : groupFree mid = true) (msg : List Char) (caps : Caps)
    (h : reMatch (amtDescRE mid) msg = some caps) :
    ∃ g1 g2, caps = [(2, g2), (1, g1)] ∧ NumParts g1 := by
  unfold reMatch at h
  obtain ⟨pre, suf, ext, heq, hm, hk⟩ := mmatch_sound _ msg [] _ caps h
  obtain ⟨g1, g2, hext, hparts, -, -⟩ := REMatch_amtDescRE hgmid hm
  simp only [Option.some.injEq] at hk
  exact ⟨g1, g2, by rw [← hk, hext]; simp, hparts⟩

/-- Same inversion for an income pattern. -/
lemma incomeRE_inv (kw : List Char) (mid : RE) (hgmid : groupFree mid = true)
    (msg : List Char) (caps : Caps)
    (h : reMatch (incomeRE kw mid) msg = some caps) :
    ∃ g1 g2, caps = [(2, g2), (1, g1)] ∧ NumParts g1 := by
  unfold reMatch incomeRE at h
  obtain ⟨pre, suf, ext, heq, hm, hk⟩ := mmatch_sound _ msg [] _ caps h
  cases hm with
  | seq hkw hB =>
    have hekw := REMatch_groupFree (groupFree_litsCI kw) hkw
    subst hekw
    cases hB with
    | seq hws hbody =>
      cases hws with
      | plus hnew hallw =>
        obtain ⟨g1, g2, hext, hparts, -, -⟩ := REMatch_amtDescRE hgmid hbody
        simp only [Option.some.injEq] at hk
        exact ⟨g1, g2, by rw [← hk, hext]; simp, hparts⟩

/-- Inversion of the tail of pattern 4: the only capture is group 2, a
numeral. -/
lemma REMatch_tail4 {l : List Char} {e : Caps} (h : REMatch tail4 l e) :
    ∃ g2, e = [(2, g2)] ∧ NumParts g2 := by
  rw [show tail4 = .seq (.starCls pySpace) (.seq (.grp 2 numRE)
      (.seq (.starCls pySpace) (.opt (.cls isEuro)))) from rfl] at h
  cases h with
  | seq hws hC =>
    cases hws with
    | star hallw =>
      cases hC with
      | seq hG2 hD =>
        cases hG2 with
        | grp hnum =>
          obtain ⟨hparts, rfl⟩ := REMatch_numRE hnum
          have heD := REMatch_groupFree (by rfl) hD
          subst heD
          exact ⟨_, by simp, hparts⟩

/-- Inversion of the tail of pattern 5, keeping the consumed structure:
whitespace, then a numeral (group 2), then the rest. -/
lemma REMatch_tail5 {l : List Char} {e : Caps} (h : REMatch tail5 l e) :
    ∃ w1 g2 rest, l = w1 ++ (g2 ++ rest) ∧ (∀ c ∈ w1, pySpace c = true)
      ∧ NumParts g2 ∧ e = [(2, g2)] := by
  rw [show tail5 = .seq (.starCls pySpace) (.seq (.grp 2 numRE)
      (.seq (.starCls pySpace) pesosRE)) from rfl] at h
  cases h with
  | seq hws hC =>
    cases hws with
    | star hallw =>
      cases hC with
      | seq hG2 hD =>
        cases hG2 with
        | grp hnum =>
          obtain ⟨hparts, rfl⟩ := REMatch_numRE hnum
          have heD := REMatch_groupFree (by rfl) hD
          subst heD
          exact ⟨_, _, _, rfl, hallw, hparts, by simp⟩

/-- Inversion of pattern 4 at the reMatch level: both groups are
captured, and group 2 is a numeral. -/
lemma pattern4_inv (msg : List Char) (caps : Caps)
    (h : reMatch pattern4 msg = some caps) :
    ∃ g1 g2, capGroup 1 caps = some g1 ∧ capGroup 2 caps = some g2 ∧ NumParts g2 := by
  unfold reMatch pattern4 at h
  obtain ⟨pre, suf, ext, heq, hm, hk⟩ := mmatch_sound _ msg [] _ caps h
  cases hm with
  | seq hG1 htl =>
    cases hG1 with
    | grp hlz =>
      cases hlz with
      | lazy hne hall =>
        obtain ⟨g2, hext, hparts⟩ := REMatch_tail4 htl
        simp only [Option.some.injEq] at hk
        subst hext
        subst hk
        exact ⟨_, _, rfl, rfl, hparts⟩

/-! ## Value lemmas for the float model -/

lemma mem_of_head? {α} (l : List α) (c : α) (h : l.head? = some c) : c ∈ l := by
  cases l with
  | nil => exact absurd h (by simp)
  | cons x t =>
    simp only [List.head?_cons, Option.some.injEq] at h
    subst h
    exact List.mem_cons_self _ _

lemma mem_of_getLast? {α} (l : List α) (c : α) (h : l.getLast? = some c) : c ∈ l := by
  induction l with
  | nil => exact absurd h (by simp)
  | cons x t ih =>
    by_cases ht : t = []
    · subst ht
      simp only [List.getLast?_singleton, Option.some.injEq] at h
      subst h
      exact List.mem_cons_self _ _
    · rw [show (x :: t) = [x] ++ t from by rw [List.singleton_append],
        getLast?_append_right [x] t ht] at h
      exact List.mem_cons_of_mem _ (ih h)

lemma takeWhile_all_eq {α} (p : α → Bool) (l : List α) (hl : ∀ c ∈ l, p c = true) :
    l.takeWhile p = l := by
  have h := takeWhile_append_all p l [] hl (by simp)
  simpa using h

lemma dropWhile_all_eq {α} (p : α → Bool) (l : List α) (hl : ∀ c ∈ l, p c = true) :
    l.dropWhile p = [] := by
  have h := dropWhile_append_all p l [] hl (by simp)
  simpa using h

lemma takeWhile_ne_nil_head {α} (p : α → Bool) (l : List α) (h : l.takeWhile p ≠ []) :
    ∃ c, l.head? = some c ∧ p c = true := by
  cases l with
  | nil => simp at h
  | cons c t =>
    by_cases hp : p c = true
    · exact ⟨c, rfl, hp⟩
    · rw [List.takeWhile_cons, if_neg hp] at h
      exact absurd rfl h

lemma takeWhile_nil_dropWhile {α} (p : α → Bool) (l : List α) (h : l.takeWhile p = []) :
    l.dropWhile p = l := by
  cases l with
  | nil => rfl
  | cons c t =>
    rw [List.takeWhile_cons] at h
    by_cases hp : p c = true
    · rw [if_pos hp] at h
      exact absurd h (by simp)
    · rw [List.dropWhile_cons, if_neg hp]

lemma map_replace_digits (l : List Char) (h : ∀ c ∈ l, c.isDigit = true) :
    pyReplaceComma l = l := by
  unfold pyReplaceComma
  induction l with
  | nil => rfl
  | cons c t ih =>
    have hc : (c == ',') = false :=
      beq_eq_false_iff_ne.mpr (ne_of_isDigit (h c (by simp)) (by decide))
    simp only [List.map_cons, hc, Bool.false_eq_true, if_neg, not_false_iff]
    rw [ih (fun x hx => h x (by simp [hx]))]

lemma pyFloatExp_nonneg (cs : List Char) (m v : ℚ) (hm : 0 ≤ m)
    (h : pyFloatExp cs m = some v) : 0 ≤ v := by
  cases cs with
  | nil =>
    simp only [pyFloatExp, Option.some.injEq] at h
    rwa [← h]
  | cons e t =>
    simp only [pyFloatExp] at h
    split at h
    · split at h
      · exact absurd h (by simp)
      · simp only [Option.some.injEq] at h
        rw [← h]
        exact mul_nonneg hm (by positivity)
    · exact absurd h (by simp)

lemma pyFloatBody_nonneg (cs : List Char) (v : ℚ) (h : pyFloatBody cs = some v) :
    0 ≤ v := by
  have hmz : (0 : ℚ) ≤ (digitsVal (cs.takeWhile Char.isDigit) : ℚ) := Nat.cast_nonneg _
  simp only [pyFloatBody] at h
  split at h
  · split at h
    · exact absurd h (by simp)
    · simp only [Option.some.injEq] at h
      rw [← h]
      exact hmz
  · split at h
    · split at h
      · exact absurd h (by simp)
      · refine pyFloatExp_nonneg _ _ _ ?_ h
        positivity
    · split at h
      · exact absurd h (by simp)
      · exact pyFloatExp_nonneg _ _ _ (Nat.cast_nonneg _) h

lemma pyFloatBody_head (cs : List Char) (v : ℚ) (h : pyFloatBody cs = some v) :
    (∃ c, cs.head? = some c ∧ c.isDigit = true) ∨
    (∃ u c3, cs = '.' :: u ∧ u.head? = some c3 ∧ c3.isDigit = true) := by
  simp only [pyFloatBody] at h
  cases hr : cs.dropWhile Char.isDigit with
  | nil =>
    rw [hr] at h
    by_cases hip : (cs.takeWhile Char.isDigit).isEmpty = true
    · rw [if_pos hip] at h
      exact absurd h (by simp)
    · left
      obtain ⟨c, hc, hcd⟩ := takeWhile_ne_nil_head Char.isDigit cs
        (fun he => hip (by rw [he]; rfl))
      exact ⟨c, hc, hcd⟩
  | cons c t =>
    rw [hr] at h
    dsimp only at h
    by_cases hdot : (c == '.') = true
    · rw [if_pos hdot] at h
      by_cases hip : (cs.takeWhile Char.isDigit).isEmpty = true
      · right
        have htw : cs.takeWhile Char.isDigit = [] := by
          cases he : cs.takeWhile Char.isDigit
          · rfl
          · rw [he] at hip
            exact absurd hip (by simp)
        have hcs : cs = c :: t := by
          rw [← hr]
          exact (takeWhile_nil_dropWhile _ _ htw).symm
        have hcdot : c = '.' := by simpa using hdot
        by_cases hfp : (t.takeWhile Char.isDigit).isEmpty = true
        · rw [show ((cs.takeWhile Char.isDigit).isEmpty && (t.takeWhile Char.isDigit).isEmpty)
              = true from by rw [hip, hfp]; rfl] at h
          exact absurd h (by simp)
        · obtain ⟨c3, hc3, hc3d⟩ := takeWhile_ne_nil_head Char.isDigit t
            (fun he => hfp (by rw [he]; rfl))
          exact ⟨t, c3, by rw [hcs, hcdot], hc3, hc3d⟩
      · left
        obtain ⟨c2, hc2, hc2d⟩ := takeWhile_ne_nil_head Char.isDigit cs
          (fun he => hip (by rw [he]; rfl))
        exact ⟨c2, hc2, hc2d⟩
    · rw [if_neg hdot] at h
      by_cases hip : (cs.takeWhile Char.isDigit).isEmpty = true
      · rw [if_pos hip] at h
        exact absurd h (by simp)
      · left
        obtain ⟨c2, hc2, hc2d⟩ := takeWhile_ne_nil_head Char.isDigit cs
          (fun he => hip (by rw [he]; rfl))
        exact ⟨c2, hc2, hc2d⟩

lemma dropWhile_eq_drop {α} (p : α → Bool) (l : List α) :
    l.dropWhile p = l.drop (l.takeWhile p).length := by
  induction l with
  | nil => rfl
  | cons c t ih =>
    by_cases hp : p c = true
    · simp [List.takeWhile_cons, List.dropWhile_cons, hp, ih]
    · simp [List.takeWhile_cons, List.dropWhile_cons, hp]

lemma stripWs_take (cs : List Char) (hh : ∀ c, cs.head? = some c → pySpace c = false) :
    ∃ m, stripWs cs = cs.take m := by
  unfold stripWs
  rw [dropWhile_eq_self_of_head pySpace cs hh]
  rw [dropWhile_eq_drop pySpace cs.reverse]
  refine ⟨cs.length - (cs.reverse.takeWhile pySpace).length, ?_⟩
  rw [List.reverse_drop, List.reverse_reverse, List.length_reverse]

/-- A numeral capture always converts, to a nonnegative rational. -/
lemma numParts_pyFloat (l : List Char) (h : NumParts l) :
    ∃ v : ℚ, pyFloatL (pyReplaceComma l) = some v ∧ 0 ≤ v := by
  rcases h with ⟨hne, hdig⟩ | ⟨d1, s, d2, heq, hd1ne, hd1, hs, hd2ne, hd2⟩
  · have hrep : pyReplaceComma l = l := map_replace_digits l hdig
    rw [hrep]
    have hstrip : stripWs l = l := stripWs_id l
      (fun c hc => digit_not_space (hdig c (mem_of_head? l c hc)))
      (fun c hc => digit_not_space (hdig c (mem_of_getLast? l c hc)))
    obtain ⟨c0, t, rfl⟩ := List.exists_cons_of_ne_nil hne
    have hc0 : c0.isDigit = true := hdig c0 (List.mem_cons_self _ _)
    have hplus : (c0 == '+') = false := beq_eq_false_iff_ne.mpr (ne_of_isDigit hc0 (by decide))
    have hminus : (c0 == '-') = false := beq_eq_false_iff_ne.mpr (ne_of_isDigit hc0 (by decide))
    have htw : (c0 :: t).takeWhile Char.isDigit = c0 :: t := takeWhile_all_eq _ _ hdig
    have hdw : (c0 :: t).dropWhile Char.isDigit = [] := dropWhile_all_eq _ _ hdig
    refine ⟨(digitsVal (c0 :: t) : ℚ), ?_, Nat.cast_nonneg _⟩
    unfold pyFloatL
    rw [hstrip]
    dsimp only
    rw [if_neg (by simp [hplus]), if_neg (by simp [hminus])]
    simp only [pyFloatBody, hdw, htw]
    rw [if_neg (by simp)]
  · subst heq
    have hsep : s = ',' ∨ s = '.' := by simpa [isSepCh] using hs
    have hrep : pyReplaceComma (d1 ++ s :: d2) = d1 ++ '.' :: d2 := by
      have h1 := map_replace_digits d1 hd1
      have h2 := map_replace_digits d2 hd2
      unfold pyReplaceComma at h1 h2 ⊢
      rw [List.map_append, List.map_cons, h1, h2]
      rcases hsep with rfl | rfl
      · rfl
      · rfl
    rw [hrep]
    obtain ⟨c0, t1, rfl⟩ := List.exists_cons_of_ne_nil hd1ne
    have hc0 : c0.isDigit = true := hd1 c0 (List.mem_cons_self _ _)
    have hstrip : stripWs ((c0 :: t1) ++ '.' :: d2) = (c0 :: t1) ++ '.' :: d2 := by
      apply stripWs_id
      · intro c hc
        simp only [List.cons_append, List.head?_cons, Option.some.injEq] at hc
        subst hc
        exact digit_not_space hc0
      · intro c hc
        rw [getLast?_append_right _ ('.' :: d2) (by simp),
          show ('.' :: d2) = ['.'] ++ d2 from rfl,
          getLast?_append_right ['.'] d2 hd2ne] at hc
        exact digit_not_space (hd2 c (mem_of_getLast? d2 c hc))
    have htw : ((c0 :: t1) ++ '.' :: d2).takeWhile Char.isDigit = c0 :: t1 :=
      takeWhile_append_all _ _ _ hd1
        (by intro c hc; simp only [List.head?_cons, Option.some.injEq] at hc; subst hc; rfl)
    have hdw : ((c0 :: t1) ++ '.' :: d2).dropWhile Char.isDigit = '.' :: d2 :=
      dropWhile_append_all _ _ _ hd1
        (by intro c hc; simp only [List.head?_cons, Option.some.injEq] at hc; subst hc; rfl)
    have htw2 : d2.takeWhile Char.isDigit = d2 := takeWhile_all_eq _ _ hd2
    have hdw2 : d2.dropWhile Char.isDigit = [] := dropWhile_all_eq _ _ hd2
    refine ⟨(digitsVal (c0 :: t1) : ℚ) + (digitsVal d2 : ℚ) / (10 : ℚ) ^ d2.length,
      ?_, by positivity⟩
    unfold pyFloatL
    rw [hstrip]
    have hplus : (c0 == '+') = false := beq_eq_false_iff_ne.mpr (ne_of_isDigit hc0 (by decide))
    have hminus : (c0 == '-') = false := beq_eq_false_iff_ne.mpr (ne_of_isDigit hc0 (by decide))
    show (if (c0 == '+') = true then pyFloatBody (t1 ++ '.' :: d2)
      else if (c0 == '-') = true then (pyFloatBody (t1 ++ '.' :: d2)).map (fun q => -q)
      else pyFloatBody ((c0 :: t1) ++ '.' :: d2)) = _
    rw [if_neg (by simp [hplus]), if_neg (by simp [hminus])]
    simp only [pyFloatBody, hdw, htw, htw2, hdw2]
    rw [if_pos (by rfl), if_neg (by simp)]
    rfl

lemma head?_take_some {α} (l : List α) (n : Nat) (c : α)
    (h : (l.take n).head? = some c) : l.head? = some c := by
  cases l with
  | nil => simp at h
  | cons x t =>
    cases n with
    | zero => simp at h
    | succ n' =>
      rw [List.take_succ_cons, List.head?_cons] at h
      rw [List.head?_cons]
      exact h

/-- A negative conversion result forces a leading minus sign followed by
a digit, or by a dot and then a digit. -/
lemma pyFloatL_neg_struct (cs : List Char) (v : ℚ)
    (hh : ∀ c, cs.head? = some c → pySpace c = false)
    (h : pyFloatL cs = some v) (hv : v < 0) :
    ∃ t, cs = '-' :: t ∧
      ((∃ c2, t.head? = some c2 ∧ c2.isDigit = true) ∨
       (∃ u c3, t = '.' :: u ∧ u.head? = some c3 ∧ c3.isDigit = true)) := by
  obtain ⟨m, hm⟩ := stripWs_take cs hh
  unfold pyFloatL at h
  rw [hm] at h
  cases hts : cs.take m with
  | nil =>
    rw [hts] at h
    exact absurd h (by simp)
  | cons c0 t' =>
    rw [hts] at h
    dsimp only at h
    by_cases hplus : (c0 == '+') = true
    · rw [if_pos hplus] at h
      exact absurd hv (not_lt.mpr (pyFloatBody_nonneg _ _ h))
    · rw [if_neg hplus] at h
      by_cases hminus : (c0 == '-') = true
      · rw [if_pos hminus] at h
        cases hb : pyFloatBody t' with
        | none =>
          rw [hb] at h
          exact absurd h (by simp)
        | some w =>
          rw [hb] at h
          have hc0m : c0 = '-' := by simpa using hminus
          cases cs with
          | nil => simp at hts
          | cons x cs' =>
            cases m with
            | zero => simp at hts
            | succ m' =>
              rw [List.take_succ_cons] at hts
              have hx : x = c0 := by
                have := congrArg List.head? hts
                simpa using this
              have ht' : cs'.take m' = t' := by
                have := congrArg List.tail hts
                simpa using this
              refine ⟨cs', by rw [hx, hc0m], ?_⟩
              rcases pyFloatBody_head t' w hb with ⟨c2, hc2, hc2d⟩ | ⟨u, c3, hu, hc3, hc3d⟩
              · left
                refine ⟨c2, ?_, hc2d⟩
                rw [← ht'] at hc2
                exact head?_take_some cs' m' c2 hc2
              · right
                rw [hu] at ht'
                cases cs' with
                | nil =>
                  cases m' with
                  | zero => simp at ht'
                  | succ m'' => simp at ht'
                | cons y cs'' =>
                  cases m' with
                  | zero => simp at ht'
                  | succ m'' =>
                    rw [List.take_succ_cons] at ht'
                    have hy : y = '.' := by
                      have := congrArg List.head? ht'
                      simpa using this
                    have hu2 : cs''.take m'' = u := by
                      have := congrArg List.tail ht'
                      simpa using this
                    refine ⟨cs'', c3, by rw [hy], ?_, hc3d⟩
                    rw [← hu2] at hc3
                    exact head?_take_some cs'' m'' c3 hc3
      · rw [if_neg hminus] at h
        exact absurd hv (not_lt.mpr (pyFloatBody_nonneg _ _ h))

/-! ## Priority order: indexed characterisation of the alternatives -/

lemma firstSome_minimal {α β} (l : List α) (f : α → Option β) (v : β)
    (h : firstSome l f = some v) :
    ∃ i, ∃ hi : i < l.length, f (l.get ⟨i, hi⟩) = some v ∧
      ∀ j (hj : j < l.length), j < i → f (l.get ⟨j, hj⟩) = none := by
  induction l with
  | nil => simp [firstSome] at h
  | cons x xs ih =>
    simp only [firstSome] at h
    cases hx : f x with
    | some w =>
      rw [hx] at h
      exact ⟨0, by simp, hx.trans h, fun j hj hji => absurd hji (Nat.not_lt_zero j)⟩
    | none =>
      rw [hx] at h
      obtain ⟨i, hi, hfi, hmin⟩ := ih h
      refine ⟨i + 1, by simpa using hi, hfi, ?_⟩
      intro j hj hji
      cases j with
      | zero => exact hx
      | succ j' => exact hmin j' (by simpa using hj) (Nat.lt_of_succ_lt_succ hji)

lemma clsSplits_length (p : Char → Bool) (cs : List Char) :
    (clsSplits p cs).length = (cs.takeWhile p).length + 1 := by
  induction cs with
  | nil => rfl
  | cons c t ih =>
    by_cases hp : p c = true
    · simp [clsSplits, hp, List.takeWhile_cons, ih]
    · simp [clsSplits, hp, List.takeWhile_cons]

lemma clsSplits_get (p : Char → Bool) (cs : List Char) (i : Nat)
    (hi : i < (clsSplits p cs).length) :
    (clsSplits p cs).get ⟨i, hi⟩ = (cs.take i, cs.drop i) := by
  induction cs generalizing i with
  | nil =>
    cases i with
    | zero => rfl
    | succ j => simp [clsSplits] at hi
  | cons c t ih =>
    cases i with
    | zero => rfl
    | succ j =>
      have hp : p c = true := by
        by_contra hp
        have hp' : p c = false := by simpa using hp
        simp [clsSplits, hp'] at hi
      have hi' : j < (clsSplits p t).length := by
        have := hi
        simp only [clsSplits, if_pos hp, List.length_cons, List.length_map] at this
        omega
      have hj2 : j < ((clsSplits p t).map (fun pr => (c :: pr.1, pr.2))).length := by
        simpa using hi'
      have hlist : clsSplits p (c :: t)
          = ([], c :: t) :: (clsSplits p t).map (fun pr => (c :: pr.1, pr.2)) := by
        simp [clsSplits, hp]
      rw [List.get_of_eq hlist]
      show ((clsSplits p t).map (fun pr => (c :: pr.1, pr.2))).get ⟨j, hj2⟩ = _
      rw [List.get_map, ih j hi']
      simp

lemma clsSplits_eq_head_tail (p : Char → Bool) (cs : List Char) :
    clsSplits p cs = ([], cs) :: (clsSplits p cs).drop 1 := by
  cases cs <;> simp [clsSplits]

/-! ## Totality: runs that cannot fail -/

lemma opt_isSome (r : RE) (cs : List Char) (caps : Caps)
    (k : List Char → Caps → Option Caps) (hk : (k cs caps).isSome = true) :
    (mmatch (.opt r) cs caps k).isSome = true := by
  simp only [mmatch]
  cases hm : mmatch r cs caps k with
  | some w => simp
  | none => simpa using hk

lemma firstSome_isSome_of_mem {α β} (l : List α) (f : α → Option β) (x : α)
    (hx : x ∈ l) (hfx : (f x).isSome = true) : (firstSome l f).isSome = true := by
  induction l with
  | nil => simp at hx
  | cons y ys ih =>
    simp only [firstSome]
    cases hy : f y with
    | some w => simp
    | none =>
      rcases List.mem_cons.mp hx with rfl | hx2
      · rw [hy] at hfx
        simp at hfx
      · exact ih hx2

lemma clsSplits_complete (p : Char → Bool) (w r : List Char)
    (hw : ∀ c ∈ w, p c = true) : (w, r) ∈ clsSplits p (w ++ r) := by
  induction w with
  | nil =>
    cases r with
    | nil => simp [clsSplits]
    | cons c t => simp [clsSplits]
  | cons c w' ih =>
    simp only [List.cons_append, clsSplits, if_pos (hw c (by simp)), List.mem_cons]
    right
    exact List.mem_map_of_mem _ (ih (fun x hx => hw x (by simp [hx])))

lemma clsSplits_drop_complete (p : Char → Bool) (w r : List Char)
    (hw : ∀ c ∈ w, p c = true) (hne : w ≠ []) :
    (w, r) ∈ (clsSplits p (w ++ r)).drop 1 := by
  obtain ⟨c, w', rfl⟩ := List.exists_cons_of_ne_nil hne
  simp only [List.cons_append, clsSplits, if_pos (hw c (by simp)), List.drop_one,
    List.tail_cons]
  exact List.mem_map_of_mem _ (clsSplits_complete p w' r (fun x hx => hw x (by simp [hx])))

lemma starCls_isSome_of_split (p : Char → Bool) (w r : List Char) (caps : Caps)
    (k : List Char → Caps → Option Caps) (hw : ∀ c ∈ w, p c = true)
    (hk : (k r caps).isSome = true) :
    (mmatch (.starCls p) (w ++ r) caps k).isSome = true := by
  simp only [mmatch]
  exact firstSome_isSome_of_mem _ _ (w, r)
    (by rw [List.mem_reverse]; exact clsSplits_complete p w r hw) hk

lemma plusCls_isSome_of_split (p : Char → Bool) (w r : List Char) (caps : Caps)
    (k : List Char → Caps → Option Caps) (hw : ∀ c ∈ w, p c = true) (hne : w ≠ [])
    (hk : (k r caps).isSome = true) :
    (mmatch (.plusCls p) (w ++ r) caps k).isSome = true := by
  simp only [mmatch]
  exact firstSome_isSome_of_mem _ _ (w, r)
    (by rw [List.mem_reverse]; exact clsSplits_drop_complete p w r hw hne) hk

lemma lazy_isSome_of_split (p : Char → Bool) (w r : List Char) (caps : Caps)
    (k : List Char → Caps → Option Caps) (hw : ∀ c ∈ w, p c = true) (hne : w ≠ [])
    (hk : (k r caps).isSome = true) :
    (mmatch (.lazyPlusCls p) (w ++ r) caps k).isSome = true := by
  simp only [mmatch]
  exact firstSome_isSome_of_mem _ _ (w, r) (clsSplits_drop_complete p w r hw hne) hk

/-- The trailing optional-euro part of pattern 4 always accepts under the
top-level continuation. -/
lemma tailEnd_isSome (cs : List Char) (caps : Caps) :
    (mmatch (.seq (.starCls pySpace) (.opt (.cls isEuro))) cs caps
      (fun _ y => some y)).isSome = true := by
  rw [seq_unfold]
  have h := starCls_isSome_of_split pySpace [] cs caps
    (fun cs' caps' => mmatch (.opt (.cls isEuro)) cs' caps' (fun _ y => some y))
    (by simp) (opt_isSome _ _ _ _ (by simp))
  simpa using h

/-- The amount group accepts any digit-headed input whenever its
continuation is total. -/
lemma numRE_isSome (c : Char) (xs : List Char) (caps : Caps)
    (k : List Char → Caps → Option Caps) (hc : c.isDigit = true)
    (hk : ∀ u cp, (k u cp).isSome = true) :
    (mmatch numRE (c :: xs) caps k).isSome = true := by
  rw [show numRE = .seq (.plusCls Char.isDigit)
      (.opt (.seq (.opt (.cls isSepCh)) (.plusCls Char.isDigit))) from rfl, seq_unfold]
  rw [show (c :: xs) = [c] ++ xs from rfl]
  apply plusCls_isSome_of_split Char.isDigit [c] xs caps _
    (by intro x hx; simp at hx; subst hx; exact hc) (by simp)
  exact opt_isSome _ _ _ _ (hk xs caps)

/-- The tail of pattern 4 accepts any digit-headed input. -/
lemma cont4_isSome (c : Char) (xs : List Char) (caps : Caps) (hc : c.isDigit = true) :
    (mmatch tail4 (c :: xs) caps (fun _ y => some y)).isSome = true := by
  rw [show tail4 = .seq (.starCls pySpace) (.seq (.grp 2 numRE)
      (.seq (.starCls pySpace) (.opt (.cls isEuro)))) from rfl, seq_unfold]
  rw [show (c :: xs) = [] ++ (c :: xs) from rfl]
  apply starCls_isSome_of_split pySpace [] (c :: xs) caps _ (by simp)
  rw [seq_unfold, grp_unfold]
  apply numRE_isSome c xs caps _ hc
  intro u cp
  exact tailEnd_isSome u _

lemma lazy_unfold (p : Char → Bool) (cs : List Char) (caps : Caps)
    (k : List Char → Caps → Option Caps) :
    mmatch (.lazyPlusCls p) cs caps k
      = firstSome ((clsSplits p cs).drop 1) (fun pr => k pr.2 caps) := rfl

/-- The lazy description group of pattern 4 captures the shortest prefix
whose continuation accepts: the capture is an indexed take, and the
continuation rejects every strictly shorter split. -/
lemma pattern4_run_min (msg : List Char) (caps : Caps)
    (h : reMatch pattern4 msg = some caps) :
    ∃ i, ∃ hi : i + 1 ≤ (msg.takeWhile notNl).length,
      capGroup 1 caps = some (msg.take (i + 1)) ∧
      ∀ j, j < i →
        mmatch tail4 (msg.drop (j + 1)) [(1, msg.take (j + 1))] (fun _ y => some y)
          = none := by
  unfold reMatch pattern4 at h
  rw [seq_unfold, grp_unfold, lazy_unfold] at h
  obtain ⟨i, hilen, hfi, hmin⟩ := firstSome_minimal _ _ _ h
  have hlen : ((clsSplits notNl msg).drop 1).length = (msg.takeWhile notNl).length := by
    rw [List.length_drop, clsSplits_length]
    omega
  have hitw : i + 1 ≤ (msg.takeWhile notNl).length := by
    rw [hlen] at hilen
    omega
  have hmle : (msg.takeWhile notNl).length ≤ msg.length :=
    (List.takeWhile_prefix notNl).length_le
  have hget : ∀ (m : Nat) (hm : m < ((clsSplits notNl msg).drop 1).length),
      ((clsSplits notNl msg).drop 1).get ⟨m, hm⟩ = (msg.take (m + 1), msg.drop (m + 1)) := by
    intro m hm
    have hm1 : m + 1 < (clsSplits notNl msg).length := by
      rw [hlen] at hm
      rw [clsSplits_length]
      omega
    have hcast : ((clsSplits notNl msg).drop 1).get ⟨m, hm⟩
        = (clsSplits notNl msg).get ⟨m + 1, hm1⟩ := by
      simp only [List.get_eq_getElem, List.getElem_drop, Nat.add_comm]
    rw [hcast, clsSplits_get]
  rw [hget i hilen] at hfi
  dsimp only at hfi
  rw [show msg.length - (msg.drop (i + 1)).length = i + 1 from by
    rw [List.length_drop]; omega] at hfi
  obtain ⟨pre, suf, ext, heq, hm, hk⟩ := mmatch_sound tail4 _ _ _ _ hfi
  obtain ⟨g2, hext, hparts⟩ := REMatch_tail4 hm
  simp only [Option.some.injEq] at hk
  subst hext
  subst hk
  refine ⟨i, hitw, rfl, ?_⟩
  intro j hji
  have hjlen : j < ((clsSplits notNl msg).drop 1).length := by
    rw [hlen]
    omega
  have hj := hmin j hjlen hji
  rw [hget j hjlen] at hj
  dsimp only at hj
  rwa [show msg.length - (msg.drop (j + 1)).length = j + 1 from by
    rw [List.length_drop]; omega] at hj

lemma replaceChar_eq_minus (c : Char)
    (h : (if (c == ',') = true then '.' else c) = '-') : c = '-' := by
  by_cases hc : (c == ',') = true
  · rw [if_pos hc] at h
    exact absurd h (by decide)
  · rwa [if_neg hc] at h

lemma replaceChar_digit (c x : Char)
    (h : (if (c == ',') = true then '.' else c) = x) (hx : x.isDigit = true) :
    c.isDigit = true := by
  by_cases hc : (c == ',') = true
  · rw [if_pos hc] at h
    rw [← h] at hx
    exact absurd hx (by decide)
  · rw [if_neg hc] at h
    rwa [h]

lemma replaceChar_not_space (c : Char) (h : pySpace c = false) :
    pySpace (if (c == ',') = true then '.' else c) = false := by
  by_cases hc : (c == ',') = true
  · rw [if_pos hc]
    rfl
  · rwa [if_neg hc]

/-- Group 1 of a successful pattern-4 match never converts to a negative
number: a minus sign would have to be followed (possibly after a dot) by
a digit, and the lazy group would then have stopped before the digit. -/
lemma pattern4_amount_nonneg (msg : List Char)
    (hh : ∀ c, msg.head? = some c → pySpace c = false)
    (caps : Caps) (h : reMatch pattern4 msg = some caps)
    (g0 : List Char) (hg : capGroup 1 caps = some g0)
    (v : ℚ) (hv : pyFloatL (pyReplaceComma g0) = some v) : 0 ≤ v := by
  by_contra hneg
  rw [not_le] at hneg
  obtain ⟨i, hi, hcap, hmin⟩ := pattern4_run_min msg caps h
  rw [hg] at hcap
  simp only [Option.some.injEq] at hcap
  have hrh : ∀ c, (pyReplaceComma g0).head? = some c → pySpace c = false := by
    intro c hc
    unfold pyReplaceComma at hc
    rw [List.head?_map] at hc
    cases hg0 : g0.head? with
    | none => rw [hg0] at hc; simp at hc
    | some c0 =>
      rw [hg0] at hc
      simp only [Option.map_some', Option.some.injEq] at hc
      have hc0m : msg.head? = some c0 := by
        rw [hcap] at hg0
        exact head?_take_some msg (i + 1) c0 hg0
      rw [← hc]
      exact replaceChar_not_space c0 (hh c0 hc0m)
  obtain ⟨t, hgm, hstruct⟩ := pyFloatL_neg_struct (pyReplaceComma g0) v hrh hv hneg
  cases hg0 : g0 with
  | nil =>
    rw [hg0] at hgm
    exact absurd hgm (by simp [pyReplaceComma])
  | cons x g0t =>
    rw [hg0] at hgm
    unfold pyReplaceComma at hgm
    rw [List.map_cons] at hgm
    have hx : x = '-' := replaceChar_eq_minus x (by
      have := congrArg List.head? hgm
      simpa using this)
    have hmap : g0t.map (fun c => if (c == ',') = true then '.' else c) = t := by
      have := congrArg List.tail hgm
      simpa using this
    cases hmsg : msg with
    | nil =>
      rw [hmsg] at hcap
      rw [hg0] at hcap
      simp at hcap
    | cons y msg' =>
      rw [hmsg, List.take_succ_cons] at hcap
      rw [hg0] at hcap
      have hg0t : g0t = msg'.take i := by
        have := congrArg List.tail hcap
        simpa using this
      rcases hstruct with ⟨c2, hc2, hc2d⟩ | ⟨u, c3, hu, hc3, hc3d⟩
      · -- minus directly followed by a digit: the split one shorter accepts
        have hg0th : ∃ c0, g0t.head? = some c0 ∧ c0.isDigit = true := by
          rw [← hmap] at hc2
          rw [List.head?_map] at hc2
          cases hgt : g0t.head? with
          | none => rw [hgt] at hc2; simp at hc2
          | some c0 =>
            rw [hgt] at hc2
            simp only [Option.map_some', Option.some.injEq] at hc2
            exact ⟨c0, rfl, replaceChar_digit c0 c2 hc2 hc2d⟩
        obtain ⟨c0, hc0h, hc0d⟩ := hg0th
        have hmsg'h : msg'.head? = some c0 := by
          rw [hg0t] at hc0h
          exact head?_take_some msg' i c0 hc0h
        have hipos : 0 < i := by
          by_contra hiz
          have hiz' : i = 0 := by omega
          rw [hiz', List.take_zero] at hg0t
          rw [hg0t] at hc0h
          simp at hc0h
        obtain ⟨c0', msg'', rfl⟩ := List.exists_cons_of_ne_nil
          (show msg' ≠ [] from fun he => by rw [he] at hmsg'h; simp at hmsg'h)
        have hc0' : c0' = c0 := by simpa using hmsg'h
        have hzero := hmin 0 hipos
        rw [hmsg] at hzero
        rw [show ((y :: c0' :: msg'').drop 1) = c0' :: msg'' from rfl] at hzero
        have hsome := cont4_isSome c0' msg''
          [(1, (y :: c0' :: msg'').take 1)] (by rw [hc0']; exact hc0d)
        rw [hzero] at hsome
        exact absurd hsome (by simp)
      · -- minus, dot, digit: the split two shorter accepts
        have hg0tsh : ∃ s g0tt, g0t = s :: g0tt
            ∧ g0tt.map (fun c => if (c == ',') = true then '.' else c) = u := by
          cases hgt : g0t with
          | nil =>
            rw [hgt] at hmap
            rw [← hmap] at hu
            simp at hu
          | cons s g0tt =>
            rw [hgt, List.map_cons] at hmap
            rw [hu] at hmap
            refine ⟨s, g0tt, rfl, ?_⟩
            have := congrArg List.tail hmap
            simpa using this
        obtain ⟨s, g0tt, hg0ts, hmapu⟩ := hg0tsh
        have hg0tth : ∃ c0, g0tt.head? = some c0 ∧ c0.isDigit = true := by
          rw [← hmapu] at hc3
          rw [List.head?_map] at hc3
          cases hgt : g0tt.head? with
          | none => rw [hgt] at hc3; simp at hc3
          | some c0 =>
            rw [hgt] at hc3
            simp only [Option.map_some', Option.some.injEq] at hc3
            exact ⟨c0, rfl, replaceChar_digit c0 c3 hc3 hc3d⟩
        obtain ⟨c0, hc0h, hc0d⟩ := hg0tth
        -- msg' = s :: msg'' and g0tt is a take of msg''
        cases hmsg' : msg' with
        | nil =>
          rw [hmsg', List.take_nil] at hg0t
          rw [hg0t] at hg0ts
          exact absurd hg0ts (by simp)
        | cons s' msg'' =>
          rw [hmsg'] at hg0t
          have hipos : 0 < i := by
            by_contra hiz
            have hiz' : i = 0 := by omega
            rw [hiz', List.take_zero] at hg0t
            rw [hg0t] at hg0ts
            exact absurd hg0ts (by simp)
          obtain ⟨i', rfl⟩ : ∃ i', i = i' + 1 := ⟨i - 1, by omega⟩
          rw [List.take_succ_cons] at hg0t
          rw [hg0ts] at hg0t
          have hg0tt : g0tt = msg''.take i' := by
            have := congrArg List.tail hg0t
            simpa using this
          have hmsg''h : msg''.head? = some c0 := by
            rw [hg0tt] at hc0h
            exact head?_take_some msg'' i' c0 hc0h
          have hipos2 : 1 < i' + 1 := by
            by_contra hiz
            have hiz' : i' = 0 := by omega
            rw [hiz', List.take_zero] at hg0tt
            rw [hg0tt] at hc0h
            simp at hc0h
          obtain ⟨c0', msg''', rfl⟩ := List.exists_cons_of_ne_nil
            (show msg'' ≠ [] from fun he => by rw [he] at hmsg''h; simp at hmsg''h)
          have hc0' : c0' = c0 := by simpa using hmsg''h
          have hone := hmin 1 hipos2
          rw [hmsg, hmsg'] at hone
          rw [show ((y :: s' :: c0' :: msg''').drop 2) = c0' :: msg''' from rfl] at hone
          have hsome := cont4_isSome c0' msg'''
            [(1, (y :: s' :: c0' :: msg''').take 2)] (by rw [hc0']; exact hc0d)
          rw [hone] at hsome
          exact absurd hsome (by simp)

/-- The head of a stripped string is never whitespace. -/
lemma stripWs_head_not_space (cs : List Char) (c : Char)
    (h : (stripWs cs).head? = some c) : pySpace c = false := by
  unfold stripWs at h
  rw [dropWhile_eq_drop pySpace (cs.dropWhile pySpace).reverse, List.reverse_drop,
    List.reverse_reverse, List.length_reverse] at h
  have h0 : (cs.dropWhile pySpace).head? = some c := head?_take_some _ _ c h
  have hm := List.head?_dropWhile_not pySpace cs
  rw [h0] at hm
  exact hm

/-- The tail of pattern 4 accepts spaces followed by a digit-headed rest. -/
lemma tail4_isSome_split (w xs : List Char) (c : Char) (caps : Caps)
    (hw : ∀ x ∈ w, pySpace x = true) (hc : c.isDigit = true) :
    (mmatch tail4 (w ++ c :: xs) caps (fun _ y => some y)).isSome = true := by
  rw [show tail4 = .seq (.starCls pySpace) (.seq (.grp 2 numRE)
      (.seq (.starCls pySpace) (.opt (.cls isEuro)))) from rfl, seq_unfold]
  apply starCls_isSome_of_split pySpace w (c :: xs) caps _ hw
  rw [seq_unfold, grp_unfold]
  apply numRE_isSome c xs _ _ hc
  intro u cp
  exact tailEnd_isSome u _

/-- Pattern 5 is subsumed by pattern 4: any input matched by the
pesos-tail variant is also matched by the optional-euro-tail variant. -/
lemma pattern4_isSome_of_pattern5 (msg : List Char) (caps : Caps)
    (h : reMatch pattern5 msg = some caps) :
    (reMatch pattern4 msg).isSome = true := by
  unfold reMatch pattern5 at h
  obtain ⟨pre, suf, ext, heq, hm, hk⟩ := mmatch_sound _ msg [] _ caps h
  cases hm with
  | seq hG1 htl =>
    cases hG1 with
    | grp hlz =>
      cases hlz with
      | lazy hne hall =>
        obtain ⟨w1, g2, rest, hl2, hw1, hg2, hext2⟩ := REMatch_tail5 htl
        obtain ⟨c, g2t, hg2c⟩ := List.exists_cons_of_ne_nil (numParts_ne_nil hg2)
        have hcd : c.isDigit = true :=
          numParts_head_digit hg2 c (by rw [hg2c]; rfl)
        subst hl2
        subst heq
        unfold reMatch pattern4
        rw [seq_unfold, grp_unfold, List.append_assoc]
        apply lazy_isSome_of_split notNl _ _ [] _ hall hne
        dsimp only
        rw [show (w1 ++ (g2 ++ rest)) ++ suf = w1 ++ (g2 ++ (rest ++ suf)) from by
          simp [List.append_assoc]]
        rw [hg2c, List.cons_append]
        exact tail4_isSome_split w1 (g2t ++ (rest ++ suf)) c _ hw1 hcd

/-- When pattern 4 matches, its loop iteration never falls through: one
of the two groups always converts. -/
lemma tryPattern4_ne_none (msg : List Char)
    (h : (reMatch pattern4 msg).isSome = true) : tryPattern pattern4 msg ≠ none := by
  obtain ⟨caps, hr⟩ := Option.isSome_iff_exists.mp h
  obtain ⟨g0, g1n, hc1, hc2, hparts⟩ := pattern4_inv msg caps hr
  intro hcon
  unfold tryPattern at hcon
  rw [hr] at hcon
  dsimp only at hcon
  rw [hc1, hc2] at hcon
  dsimp only at hcon
  cases hq : pyFloatL (pyReplaceComma g0) with
  | some v =>
    rw [hq] at hcon
    dsimp only at hcon
    exact Option.noConfusion hcon
  | none =>
    rw [hq] at hcon
    dsimp only at hcon
    obtain ⟨v, hv, hv0⟩ := numParts_pyFloat g1n hparts
    rw [hv] at hcon
    dsimp only at hcon
    exact Option.noConfusion hcon

/-- Amount-first patterns produce a nonnegative amount: group 1 is a
numeral and its conversion succeeds with a nonnegative value. -/
lemma tryPattern_amtDesc_nonneg (mid : RE) (hgmid : groupFree mid = true)
    (msg : List Char) (a : ℚ) (d : String)
    (h : tryPattern (amtDescRE mid) msg = some (a, d)) : 0 ≤ a := by
  unfold tryPattern at h
  cases hr : reMatch (amtDescRE mid) msg with
  | none =>
    rw [hr] at h
    dsimp only at h
    exact Option.noConfusion h
  | some caps =>
    rw [hr] at h
    dsimp only at h
    obtain ⟨g1, g2, hcaps, hparts⟩ := amtDescRE_inv mid hgmid msg caps hr
    have hc1 : capGroup 1 caps = some g1 := by rw [hcaps]; rfl
    have hc2 : capGroup 2 caps = some g2 := by rw [hcaps]; rfl
    rw [hc1, hc2] at h
    dsimp only at h
    obtain ⟨v, hv, hv0⟩ := numParts_pyFloat g1 hparts
    rw [hv] at h
    dsimp only at h
    simp only [Option.some.injEq, Prod.mk.injEq] at h
    exact h.1 ▸ hv0

/-- Pattern 4 produces a nonnegative amount on whitespace-stripped input:
the first branch by lazy minimality, the second because group 2 is a
numeral. -/
lemma tryPattern4_nonneg (msg : List Char)
    (hh : ∀ c, msg.head? = some c → pySpace c = false)
    (a : ℚ) (d : String) (h : tryPattern pattern4 msg = some (a, d)) : 0 ≤ a := by
  unfold tryPattern at h
  cases hr : reMatch pattern4 msg with
  | none =>
    rw [hr] at h
    dsimp only at h
    exact Option.noConfusion h
  | some caps =>
    rw [hr] at h
    dsimp only at h
    obtain ⟨g0, g1n, hc1, hc2, hparts⟩ := pattern4_inv msg caps hr
    rw [hc1, hc2] at h
    dsimp only at h
    cases hq : pyFloatL (pyReplaceComma g0) with
    | some v =>
      rw [hq] at h
      dsimp only at h
      simp only [Option.some.injEq, Prod.mk.injEq] at h
      have hnn := pattern4_amount_nonneg msg hh caps hr g0 hc1 v hq
      exact h.1 ▸ hnn
    | none =>
      rw [hq] at h
      dsimp only at h
      obtain ⟨v, hv, hv0⟩ := numParts_pyFloat g1n hparts
      rw [hv] at h
      dsimp only at h
      simp only [Option.some.injEq, Prod.mk.injEq] at h
      exact h.1 ▸ hv0

/-- Every income pattern produces a nonnegative amount. -/
lemma tryIncome_nonneg (kw : List Char) (mid : RE) (hgmid : groupFree mid = true)
    (msg : List Char) (a : ℚ) (d : String)
    (h : tryIncomePattern (incomeRE kw mid) msg = some (a, d)) : 0 ≤ a := by
  unfold tryIncomePattern at h
  cases hr : reMatch (incomeRE kw mid) msg with
  | none =>
    rw [hr] at h
    dsimp only at h
    exact Option.noConfusion h
  | some caps =>
    rw [hr] at h
    dsimp only at h
    obtain ⟨g1, g2, hcaps, hparts⟩ := incomeRE_inv kw mid hgmid msg caps hr
    have hc1 : capGroup 1 caps = some g1 := by rw [hcaps]; rfl
    have hc2 : capGroup 2 caps = some g2 := by rw [hcaps]; rfl
    rw [hc1, hc2] at h
    dsimp only at h
    obtain ⟨v, hv, hv0⟩ := numParts_pyFloat g1 hparts
    rw [hv] at h
    dsimp only at h
    simp only [Option.some.injEq, Prod.mk.injEq] at h
    exact h.1 ▸ hv0

/-! ## Nonnegativity under the full float() model -/

/-- A finite result of the full conversion comes from the rational model. -/
lemma pyFloatFull_finite_inv (cs : List Char) (q : ℚ)
    (h : pyFloatFull cs = some (.finite q)) : pyFloatL cs = some q := by
  unfold pyFloatFull at h
  cases hs : stripWs cs with
  | nil =>
    rw [hs] at h
    exact Option.noConfusion h
  | cons c r =>
    rw [hs] at h
    dsimp only at h
    split_ifs at h
    all_goals
      first
        | (simp only [Option.some.injEq] at h
           exact PyVal.noConfusion h)
        | (cases hp : pyFloatL cs with
           | none =>
             rw [hp] at h
             exact Option.noConfusion h
           | some v =>
             rw [hp, Option.map_some'] at h
             simp only [Option.some.injEq, PyVal.finite.injEq] at h
             rw [h])

/-- Every character of a numeral capture is a digit or a separator. -/
lemma numParts_chars {l : List Char} (h : NumParts l) :
    ∀ c ∈ l, c.isDigit = true ∨ isSepCh c = true := by
  intro c hc
  rcases h with ⟨-, hdig⟩ | ⟨d1, s, d2, heq, -, hd1, hs, -, hd2⟩
  · exact Or.inl (hdig c hc)
  · subst heq
    rcases List.mem_append.mp hc with h1 | h2
    · exact Or.inl (hd1 c h1)
    · rcases List.mem_cons.mp h2 with rfl | h3
      · exact Or.inr hs
      · exact Or.inl (hd2 c h3)

lemma replaceChar_of_digit (c : Char) (h : c.isDigit = true) :
    (if (c == ',') = true then '.' else c) = c := by
  rw [if_neg]
  intro hb
  rw [eq_of_beq hb] at h
  exact absurd h (by decide)

/-- Comma replacement on a digit/separator string gives digits and dots. -/
lemma pyReplaceComma_chars {l : List Char}
    (h : ∀ c ∈ l, c.isDigit = true ∨ isSepCh c = true) :
    ∀ c ∈ pyReplaceComma l, c.isDigit = true ∨ c = '.' := by
  intro c hc
  unfold pyReplaceComma at hc
  rw [List.mem_map] at hc
  obtain ⟨c', hc', rfl⟩ := hc
  rcases h c' hc' with hd | hs
  · rw [replaceChar_of_digit c' hd]
    exact Or.inl hd
  · have hcc : c' = ',' ∨ c' = '.' := by simpa [isSepCh] using hs
    rcases hcc with rfl | rfl
    · exact Or.inr (by decide)
    · exact Or.inr (by decide)

lemma isInfStr_digit_head (c : Char) (r : List Char) (hc : c.isDigit = true) :
    isInfStr (c :: r) = false := by
  unfold isInfStr
  have h1 : pyLower c = c := digit_pyLower hc
  have hne1 : (c :: r).map pyLower ≠ ['i', 'n', 'f'] := by
    rw [List.map_cons, h1]
    intro he
    injection he with he1 _
    exact ne_of_isDigit hc (by decide) he1
  have hne2 : (c :: r).map pyLower ≠ ['i', 'n', 'f', 'i', 'n', 'i', 't', 'y'] := by
    rw [List.map_cons, h1]
    intro he
    injection he with he1 _
    exact ne_of_isDigit hc (by decide) he1
  rw [decide_eq_false hne1, decide_eq_false hne2]
  rfl

lemma isNanStr_digit_head (c : Char) (r : List Char) (hc : c.isDigit = true) :
    isNanStr (c :: r) = false := by
  unfold isNanStr
  have h1 : pyLower c = c := digit_pyLower hc
  have hne1 : (c :: r).map pyLower ≠ ['n', 'a', 'n'] := by
    rw [List.map_cons, h1]
    intro he
    injection he with he1 _
    exact ne_of_isDigit hc (by decide) he1
  rw [decide_eq_false hne1]

/-- A numeral capture converts in the full model too, to a nonnegative
finite value: it starts with a digit, so no special spelling applies. -/
lemma numParts_pyFloatFull (l : List Char) (h : NumParts l) :
    ∃ v : ℚ, pyFloatFull (pyReplaceComma l) = some (.finite v) ∧ 0 ≤ v := by
  obtain ⟨v, hv, hv0⟩ := numParts_pyFloat l h
  refine ⟨v, ?_, hv0⟩
  have hchars := pyReplaceComma_chars (numParts_chars h)
  have hnsp : ∀ c ∈ pyReplaceComma l, pySpace c = false := by
    intro c hc
    rcases hchars c hc with hd | rfl
    · exact digit_not_space hd
    · decide
  have hid : stripWs (pyReplaceComma l) = pyReplaceComma l :=
    stripWs_id _ (fun c hc => hnsp c (mem_of_head? _ c hc))
      (fun c hc => hnsp c (mem_of_getLast? _ c hc))
  obtain ⟨c0, t0, hl0⟩ := List.exists_cons_of_ne_nil (numParts_ne_nil h)
  have hc0 : c0.isDigit = true := numParts_head_digit h c0 (by rw [hl0]; rfl)
  have hcr : pyReplaceComma l = c0 :: pyReplaceComma t0 := by
    rw [hl0]
    unfold pyReplaceComma
    rw [List.map_cons, replaceChar_of_digit c0 hc0]
  unfold pyFloatFull
  rw [hid, hcr]
  dsimp only
  have hplus : ¬ (c0 == '+') = true := by
    rw [beq_eq_false_iff_ne.mpr (ne_of_isDigit hc0 (by decide))]
    exact Bool.noConfusion
  have hminus : ¬ (c0 == '-') = true := by
    rw [beq_eq_false_iff_ne.mpr (ne_of_isDigit hc0 (by decide))]
    exact Bool.noConfusion
  rw [if_neg hplus, if_neg hminus,
    if_neg (by rw [isInfStr_digit_head c0 _ hc0]; exact Bool.noConfusion),
    if_neg (by rw [isNanStr_digit_head c0 _ hc0]; exact Bool.noConfusion),
    ← hcr, hv]
  rfl

/-- Under the full model, amount-first patterns only produce nonnegative
finite amounts. -/
lemma tryPatternFull_amtDesc (mid : RE) (hgmid : groupFree mid = true)
    (msg : List Char) (a : PyVal) (d : String)
    (h : tryPatternFull (amtDescRE mid) msg = some (a, d)) :
    ∀ q : ℚ, a = .finite q → 0 ≤ q := by
  unfold tryPatternFull at h
  cases hr : reMatch (amtDescRE mid) msg with
  | none =>
    rw [hr] at h
    dsimp only at h
    exact Option.noConfusion h
  | some caps =>
    rw [hr] at h
    dsimp only at h
    obtain ⟨g1, g2, hcaps, hparts⟩ := amtDescRE_inv mid hgmid msg caps hr
    have hc1 : capGroup 1 caps = some g1 := by rw [hcaps]; rfl
    have hc2 : capGroup 2 caps = some g2 := by rw [hcaps]; rfl
    rw [hc1, hc2] at h
    dsimp only at h
    obtain ⟨v, hv, hv0⟩ := numParts_pyFloatFull g1 hparts
    rw [hv] at h
    dsimp only at h
    simp only [Option.some.injEq, Prod.mk.injEq] at h
    intro q hq
    rw [← h.1] at hq
    injection hq with h2
    rw [← h2]
    exact hv0

/-- Under the full model, a finite amount from pattern 4 is nonnegative:
a finite conversion factors through the rational model, where the lazy
minimality argument applies; the fallback group is a numeral. -/
lemma tryPatternFull4 (msg : List Char)
    (hh : ∀ c, msg.head? = some c → pySpace c = false)
    (a : PyVal) (d : String) (h : tryPatternFull pattern4 msg = some (a, d)) :
    ∀ q : ℚ, a = .finite q → 0 ≤ q := by
  unfold tryPatternFull at h
  cases hr : reMatch pattern4 msg with
  | none =>
    rw [hr] at h
    dsimp only at h
    exact Option.noConfusion h
  | some caps =>
    rw [hr] at h
    dsimp only at h
    obtain ⟨g0, g1n, hc1, hc2, hparts⟩ := pattern4_inv msg caps hr
    rw [hc1, hc2] at h
    dsimp only at h
    cases hq : pyFloatFull (pyReplaceComma g0) with
    | some af =>
      rw [hq] at h
      dsimp only at h
      simp only [Option.some.injEq, Prod.mk.injEq] at h
      intro q hfq
      rw [← h.1] at hfq
      subst hfq
      exact pattern4_amount_nonneg msg hh caps hr g0 hc1 q
        (pyFloatFull_finite_inv _ _ hq)
    | none =>
      rw [hq] at h
      dsimp only at h
      obtain ⟨v, hv, hv0⟩ := numParts_pyFloatFull g1n hparts
      rw [hv] at h
      dsimp only at h
      simp only [Option.some.injEq, Prod.mk.injEq] at h
      intro q hfq
      rw [← h.1] at hfq
      injection hfq with h2
      rw [← h2]
      exact hv0

/-- Under the full model too, pattern 4's iteration never falls through. -/
lemma tryPatternFull4_ne_none (msg : List Char)
    (h : (reMatch pattern4 msg).isSome = true) :
    tryPatternFull pattern4 msg ≠ none := by
  obtain ⟨caps, hr⟩ := Option.isSome_iff_exists.mp h
  obtain ⟨g0, g1n, hc1, hc2, hparts⟩ := pattern4_inv msg caps hr
  intro hcon
  unfold tryPatternFull at hcon
  rw [hr] at hcon
  dsimp only at hcon
  rw [hc1, hc2] at hcon
  dsimp only at hcon
  cases hq : pyFloatFull (pyReplaceComma g0) with
  | some v =>
    rw [hq] at hcon
    dsimp only at hcon
    exact Option.noConfusion hcon
  | none =>
    rw [hq] at hcon
    dsimp only at hcon
    obtain ⟨v, hv, hv0⟩ := numParts_pyFloatFull g1n hparts
    rw [hv] at hcon
    dsimp only at hcon
    exact Option.noConfusion hcon

/-- Under the full model, every income pattern's amount is a nonnegative
finite value when finite. -/
lemma tryIncomeFull_nonneg (kw : List Char) (mid : RE) (hgmid : groupFree mid = true)
    (msg : List Char) (a : PyVal) (d : String)
    (h : tryIncomePatternFull (incomeRE kw mid) msg = some (a, d)) :
    ∀ q : ℚ, a = .finite q → 0 ≤ q := by
  unfold tryIncomePatternFull at h
  cases hr : reMatch (incomeRE kw mid) msg with
  | none =>
    rw [hr] at h
    dsimp only at h
    exact Option.noConfusion h
  | some caps =>
    rw [hr] at h
    dsimp only at h
    obtain ⟨g1, g2, hcaps, hparts⟩ := incomeRE_inv kw mid hgmid msg caps hr
    have hc1 : capGroup 1 caps = some g1 := by rw [hcaps]; rfl
    have hc2 : capGroup 2 caps = some g2 := by rw [hcaps]; rfl
    rw [hc1, hc2] at h
    dsimp only at h
    obtain ⟨v, hv, hv0⟩ := numParts_pyFloatFull g1 hparts
    rw [hv] at h
    dsimp only at h
    simp only [Option.some.injEq, Prod.mk.injEq] at h
    intro q hq
    rw [← h.1] at hq
    injection hq with h2
    rw [← h2]
    exact hv0

/-! ## Captures draw from the input: the amount-only description -/

/-- Every capture entry records a sublist of the consumed input. -/
lemma REMatch_caps_subset {r : RE} {l : List Char} {e : Caps} (h : REMatch r l e) :
    ∀ pr ∈ e, ∀ c ∈ pr.2, c ∈ l := by
  induction h with
  | eps => intro pr hpr; exact absurd hpr (List.not_mem_nil pr)
  | cls _ => intro pr hpr; exact absurd hpr (List.not_mem_nil pr)
  | seq h1 h2 ih1 ih2 =>
    intro pr hpr c hc
    rcases List.mem_append.mp hpr with h' | h'
    · exact List.mem_append_right _ (ih2 pr h' c hc)
    · exact List.mem_append_left _ (ih1 pr h' c hc)
  | optSome h ih => exact ih
  | optNone => intro pr hpr; exact absurd hpr (List.not_mem_nil pr)
  | star _ => intro pr hpr; exact absurd hpr (List.not_mem_nil pr)
  | plus _ _ => intro pr hpr; exact absurd hpr (List.not_mem_nil pr)
  | lazy _ _ => intro pr hpr; exact absurd hpr (List.not_mem_nil pr)
  | grp h ih =>
    intro pr hpr c hc
    rcases List.mem_cons.mp hpr with rfl | h'
    · exact hc
    · exact ih pr h' c hc

/-- Characters of any retrieved group of a successful match come from
the input. -/
lemma reMatch_caps_mem (r : RE) (msg : List Char) (caps : Caps)
    (h : reMatch r msg = some caps) (i : Nat) (g : List Char)
    (hg : capGroup i caps = some g) : ∀ c ∈ g, c ∈ msg := by
  unfold reMatch at h
  obtain ⟨pre, suf, ext, heq, hm, hk⟩ := mmatch_sound _ msg [] _ caps h
  simp only [Option.some.injEq] at hk
  intro c hc
  subst heq
  unfold capGroup at hg
  cases hf : caps.find? (fun pr => pr.1 == i) with
  | none =>
    rw [hf] at hg
    exact absurd hg (by simp)
  | some pr =>
    rw [hf] at hg
    simp only [Option.map_some', Option.some.injEq] at hg
    have hmem : pr ∈ caps := List.mem_of_find?_eq_some hf
    rw [← hk, List.append_nil] at hmem
    refine List.mem_append_left _ (REMatch_caps_subset hm pr hmem c ?_)
    rw [hg]
    exact hc

/-- amtDescRE inversion keeping that the description capture is nonempty. -/
lemma amtDescRE_inv_desc (mid : RE) (hgmid : groupFree mid = true) (msg : List Char)
    (caps : Caps) (h : reMatch (amtDescRE mid) msg = some caps) :
    ∃ g1 g2, caps = [(2, g2), (1, g1)] ∧ NumParts g1 ∧ g2 ≠ [] := by
  unfold reMatch at h
  obtain ⟨pre, suf, ext, heq, hm, hk⟩ := mmatch_sound _ msg [] _ caps h
  obtain ⟨g1, g2, hext, hparts, hne, -⟩ := REMatch_amtDescRE hgmid hm
  simp only [Option.some.injEq] at hk
  exact ⟨g1, g2, by rw [← hk, hext]; simp, hparts, hne⟩

/-- pattern4 inversion keeping that the lazy capture is nonempty. -/
lemma pattern4_inv_desc (msg : List Char) (caps : Caps)
    (h : reMatch pattern4 msg = some caps) :
    ∃ g1 g2, capGroup 1 caps = some g1 ∧ capGroup 2 caps = some g2
      ∧ NumParts g2 ∧ g1 ≠ [] := by
  unfold reMatch pattern4 at h
  obtain ⟨pre, suf, ext, heq, hm, hk⟩ := mmatch_sound _ msg [] _ caps h
  cases hm with
  | seq hG1 htl =>
    cases hG1 with
    | grp hlz =>
      cases hlz with
      | lazy hne hall =>
        obtain ⟨g2, hext, hparts⟩ := REMatch_tail4 htl
        simp only [Option.some.injEq] at hk
        subst hext
        subst hk
        exact ⟨_, _, rfl, rfl, hparts, hne⟩

/-- A digit/separator string is untouched by stripping. -/
lemma stripWs_of_digit_sep (g : List Char)
    (hg : ∀ c ∈ g, c.isDigit = true ∨ isSepCh c = true) : stripWs g = g := by
  have hnsp : ∀ c ∈ g, pySpace c = false := by
    intro c hc
    rcases hg c hc with hd | hs
    · exact digit_not_space hd
    · have hcc : c = ',' ∨ c = '.' := by simpa [isSepCh] using hs
      rcases hcc with rfl | rfl
      · decide
      · decide
  exact stripWs_id g (fun c hc => hnsp c (mem_of_head? _ c hc))
    (fun c hc => hnsp c (mem_of_getLast? _ c hc))

lemma isPrefixOf_false_head (c0 : Char) (t : List Char) (c : Char) (hs : List Char)
    (hne : c0 ≠ c) : (c0 :: t).isPrefixOf (c :: hs) = false := by
  simp [List.isPrefixOf, beq_eq_false_iff_ne.mpr hne]

/-- A needle headed by a non-digit, non-separator character never occurs
in a digit/separator haystack. -/
lemma containsSub_disjoint (c0 : Char) (t : List Char) (hay : List Char)
    (hhay : ∀ c ∈ hay, c.isDigit = true ∨ isSepCh c = true)
    (hc0d : c0.isDigit = false) (hc0s : isSepCh c0 = false) :
    containsSub (c0 :: t) hay = false := by
  induction hay with
  | nil => rfl
  | cons c hs ih =>
    unfold containsSub
    have hne : c0 ≠ c := by
      intro he
      subst he
      rcases hhay c0 (List.mem_cons_self _ _) with hdg | hsp
      · rw [hdg] at hc0d
        exact Bool.noConfusion hc0d
      · rw [hsp] at hc0s
        exact Bool.noConfusion hc0s
    rw [isPrefixOf_false_head c0 t c hs hne,
      ih (fun x hx => hhay x (List.mem_cons_of_mem _ hx))]
    rfl

/-- The classifier loop falls through to the catch-all on a target with
only digit/separator characters, whenever every keyword starts with a
character outside that class. -/
lemma categorize_loop_otros (t : List (String × List String)) (tgt : List Char)
    (htgt : ∀ c ∈ tgt, c.isDigit = true ∨ isSepCh c = true)
    (hkw : ∀ row ∈ t, ∀ kw ∈ row.2,
      ∃ c0 tl, kw.data = c0 :: tl ∧ c0.isDigit = false ∧ isSepCh c0 = false) :
    categorize_loop t tgt = "otros" := by
  induction t with
  | nil => rfl
  | cons row rest ih =>
    obtain ⟨cat, kws⟩ := row
    unfold categorize_loop
    have hany : kws.any (fun kw => containsSub kw.data tgt) = false := by
      rw [List.any_eq_false]
      intro kw hkwmem
      obtain ⟨c0, tl, hdata, hc0d, hc0s⟩ :=
        hkw (cat, kws) (List.mem_cons_self _ _) kw hkwmem
      rw [hdata, containsSub_disjoint c0 tl tgt htgt hc0d hc0s]
      exact Bool.noConfusion
    rw [hany]
    simp only [Bool.false_eq_true, if_false]
    exact ih (fun r hr => hkw r (List.mem_cons_of_mem _ hr))

/-- A description of digits and separators is classified as otros: every
keyword of the table starts with a letter. -/
lemma categorize_digit_sep (d : String)
    (hd : ∀ c ∈ d.data, c.isDigit = true ∨ isSepCh c = true) :
    categorize_expense d = "otros" := by
  unfold categorize_expense
  apply categorize_loop_otros
  · intro c hc
    rw [List.mem_map] at hc
    obtain ⟨c', hc', rfl⟩ := hc
    rcases hd c' hc' with hdg | hs
    · rw [digit_pyLower hdg]
      exact Or.inl hdg
    · have hcc : c' = ',' ∨ c' = '.' := by simpa [isSepCh] using hs
      rcases hcc with rfl | rfl
      · exact Or.inr (by decide)
      · exact Or.inr (by decide)
  · intro row hrow kw hkw
    fin_cases hrow <;> fin_cases hkw <;> exact ⟨_, _, rfl, by decide, by decide⟩

/-- On a digit/separator input, a successful amount-first iteration has a
nonempty digit/separator description. -/
lemma tryPattern_amtDesc_desc (mid : RE) (hgmid : groupFree mid = true)
    (N : List Char) (hN : ∀ c ∈ N, c.isDigit = true ∨ isSepCh c = true)
    (a : ℚ) (d : String) (h : tryPattern (amtDescRE mid) N = some (a, d)) :
    d.data ≠ [] ∧ ∀ c ∈ d.data, c.isDigit = true ∨ isSepCh c = true := by
  unfold tryPattern at h
  cases hr : reMatch (amtDescRE mid) N with
  | none =>
    rw [hr] at h
    dsimp only at h
    exact Option.noConfusion h
  | some caps =>
    rw [hr] at h
    dsimp only at h
    obtain ⟨g1, g2, hcaps, hparts, hg2ne⟩ := amtDescRE_inv_desc mid hgmid N caps hr
    have hc1 : capGroup 1 caps = some g1 := by rw [hcaps]; rfl
    have hc2 : capGroup 2 caps = some g2 := by rw [hcaps]; rfl
    rw [hc1, hc2] at h
    dsimp only at h
    obtain ⟨v, hv, hv0⟩ := numParts_pyFloat g1 hparts
    rw [hv] at h
    dsimp only at h
    simp only [Option.some.injEq, Prod.mk.injEq] at h
    have hg2chars : ∀ c ∈ g2, c.isDigit = true ∨ isSepCh c = true :=
      fun c hc => hN c (reMatch_caps_mem _ N caps hr 2 g2 hc2 c hc)
    have hdd : d.data = g2 := by
      rw [← h.2]
      show stripWs g2 = g2
      exact stripWs_of_digit_sep g2 hg2chars
    rw [hdd]
    exact ⟨hg2ne, hg2chars⟩

/-- On a digit/separator input, a successful pattern-4 iteration has a
nonempty digit/separator description, whichever group converts. -/
lemma tryPattern4_desc (N : List Char)
    (hN : ∀ c ∈ N, c.isDigit = true ∨ isSepCh c = true)
    (a : ℚ) (d : String) (h : tryPattern pattern4 N = some (a, d)) :
    d.data ≠ [] ∧ ∀ c ∈ d.data, c.isDigit = true ∨ isSepCh c = true := by
  unfold tryPattern at h
  cases hr : reMatch pattern4 N with
  | none =>
    rw [hr] at h
    dsimp only at h
    exact Option.noConfusion h
  | some caps =>
    rw [hr] at h
    dsimp only at h
    obtain ⟨g0, g2, hc1, hc2, hparts, hg0ne⟩ := pattern4_inv_desc N caps hr
    rw [hc1, hc2] at h
    dsimp only at h
    cases hq : pyFloatL (pyReplaceComma g0) with
    | some v =>
      rw [hq] at h
      dsimp only at h
      simp only [Option.some.injEq, Prod.mk.injEq] at h
      have hg2chars := numParts_chars hparts
      have hdd : d.data = g2 := by
        rw [← h.2]
        show stripWs g2 = g2
        exact stripWs_of_digit_sep g2 hg2chars
      rw [hdd]
      exact ⟨numParts_ne_nil hparts, hg2chars⟩
    | none =>
      rw [hq] at h
      dsimp only at h
      obtain ⟨v, hv, hv0⟩ := numParts_pyFloat g2 hparts
      rw [hv] at h
      dsimp only at h
      simp only [Option.some.injEq, Prod.mk.injEq] at h
      have hg0chars : ∀ c ∈ g0, c.isDigit = true ∨ isSepCh c = true :=
        fun c hc => hN c (reMatch_caps_mem _ N caps hr 1 g0 hc1 c hc)
      have hdd : d.data = g0 := by
        rw [← h.2]
        show stripWs g0 = g0
        exact stripWs_of_digit_sep g0 hg0chars
      rw [hdd]
      exact ⟨hg0ne, hg0chars⟩

/-! ## Counterexamples for C2 and C3 -/

/-- Counterexample to C2 as stated: with amount 50 and the non-empty
description "€x", the parsed description is "x", not "€x" — the optional
currency mark consumes the leading euro sign of the description. -/
theorem c2_counterexample :
    parse_message "50 €x" = some (.expense, 50, "x")
    ∧ ("x" : String) ≠ "€x" := by
  constructor
  · decide
  · decide

/-- Counterexample to C3 as stated: there is no positivity check — the
parser accepts amount 0 — and the amount need not even be nonnegative:
float() accepts "-inf", which pattern 4's lazy group can capture because
it holds no digit, so "-inf 5" parses with amount negative infinity. -/
theorem c3_counterexample :
    parse_expense "0 café" = some (0, "café") ∧ ¬ (0 : ℚ) > 0
    ∧ parse_expense_full "-inf 5" = some (.ninf, "5") := by
  refine ⟨by decide, by decide, by decide⟩

/-- C3 (corrected): whenever the expense or income parser succeeds, the
returned amount is never a negative finite number — but it can be zero
("0 café") and it can be negative infinity ("-inf 5"), so neither the
spec's strict positivity nor plain nonnegativity holds. Amount-first
patterns and all income patterns convert a nonnegative numeral; a finite
conversion of pattern 4's lazy group factors through the finite-literal
grammar, and the lazy group cannot capture a digit-bearing negative
literal because it stops at the shortest prefix whose continuation
accepts; pattern 5 is unreachable behind pattern 4. -/
theorem c3_no_negative_finite_amount :
    (∀ (msg : String) (a : PyVal) (d : String),
      parse_expense_full msg = some (a, d) → ∀ q : ℚ, a = .finite q → 0 ≤ q) ∧
    (∀ (msg : String) (a : PyVal) (d : String),
      parse_income_full msg = some (a, d) → ∀ q : ℚ, a = .finite q → 0 ≤ q) := by
  constructor
  · intro msg a d h
    unfold parse_expense_full at h
    obtain ⟨i, hi, hfi, hmin⟩ := firstSome_minimal _ _ _ h
    have hi5 : i < 5 := by simpa [expensePatterns] using hi
    interval_cases i
    · exact tryPatternFull_amtDesc (.opt (.cls isEuro)) rfl _ a d hfi
    · exact tryPatternFull_amtDesc pesosRE rfl _ a d hfi
    · exact tryPatternFull_amtDesc (.cls isDollar) rfl _ a d hfi
    · exact tryPatternFull4 _
        (fun c hc => stripWs_head_not_space msg.data c hc) a d hfi
    · -- pattern 5 is unreachable: its match implies pattern 4 matched,
      -- whose iteration cannot have fallen through
      have hr5 : ∃ caps, reMatch pattern5 (stripWs msg.data) = some caps := by
        cases hr : reMatch pattern5 (stripWs msg.data) with
        | some caps => exact ⟨caps, rfl⟩
        | none =>
          have hfi' : tryPatternFull pattern5 (stripWs msg.data) = some (a, d) := hfi
          unfold tryPatternFull at hfi'
          rw [hr] at hfi'
          dsimp only at hfi'
          exact Option.noConfusion hfi'
      obtain ⟨caps, hr5⟩ := hr5
      have h4 := pattern4_isSome_of_pattern5 _ caps hr5
      have hne := tryPatternFull4_ne_none _ h4
      have h40 := hmin 3 (by simp [expensePatterns]) (by omega)
      exact absurd h40 hne
  · intro msg a d h
    unfold parse_income_full at h
    obtain ⟨i, hi, hfi, hmin⟩ := firstSome_minimal _ _ _ h
    have hi5 : i < 5 := by simpa [incomePatterns] using hi
    interval_cases i
    · exact tryIncomeFull_nonneg ['i', 'n', 'g', 'r', 'e', 's', 'o'] (.opt (.cls isEuro))
        rfl _ a d hfi
    · exact tryIncomeFull_nonneg ['i', 'n', 'g', 'r', 'e', 's', 'o'] pesosRE rfl _ a d hfi
    · exact tryIncomeFull_nonneg ['c', 'o', 'b', 'r', 'é'] (.opt (.cls isEuro)) rfl _ a d hfi
    · exact tryIncomeFull_nonneg ['c', 'o', 'b', 'r', 'é'] pesosRE rfl _ a d hfi
    · exact tryIncomeFull_nonneg ['e', 'n', 't', 'r', 'a', 'd', 'a'] (.opt (.cls isEuro))
        rfl _ a d hfi

/-- Witness for C3: a concrete successful parse with a finite amount at
which the theorem applies. -/
theorem c3_no_negative_finite_amount_witness :
    parse_expense_full "0 café" = some (.finite 0, "café") ∧ (0 : ℚ) ≤ 0 :=
  ⟨by decide,
   c3_no_negative_finite_amount.1 "0 café" (.finite 0) "café" (by decide) 0 rfl⟩

/-- C9 amended. An amount-only message never produces an empty
description: whenever the expense parser succeeds on a message whose
stripped form is a bare numeral (digits with an optional comma or dot
separator), the description is nonempty, consists of digit and separator
characters drawn from the numeral, and is classified as the catch-all
otros. Backtracking splits the numeral — "50" yields amount 5 with
description "0", "3.50" yields 3.5 with description "0" — while a
single-character numeral such as "5" is not recognised at all. -/
theorem c9_amount_only_split :
    (∀ (msg : String) (a : ℚ) (d : String),
      numShapeB (stripWs msg.data) = true →
      parse_expense msg = some (a, d) →
      d ≠ "" ∧ (∀ c ∈ d.data, c.isDigit = true ∨ isSepCh c = true)
        ∧ categorize_expense d = "otros")
    ∧ parse_expense "50" = some (5, "0")
    ∧ parse_expense "5" = none
    ∧ parse_expense "3.50" = some (7 / 2, "0") := by
  refine ⟨?_, by decide, by decide, ?_⟩
  · intro msg a d hshape h
    have hN := numParts_chars (numShapeB_parts _ hshape)
    unfold parse_expense at h
    obtain ⟨i, hi, hfi, hmin⟩ := firstSome_minimal _ _ _ h
    have hi5 : i < 5 := by simpa [expensePatterns] using hi
    have hout : d.data ≠ [] ∧ ∀ c ∈ d.data, c.isDigit = true ∨ isSepCh c = true := by
      interval_cases i
      · exact tryPattern_amtDesc_desc (.opt (.cls isEuro)) rfl _ hN a d hfi
      · exact tryPattern_amtDesc_desc pesosRE rfl _ hN a d hfi
      · exact tryPattern_amtDesc_desc (.cls isDollar) rfl _ hN a d hfi
      · exact tryPattern4_desc _ hN a d hfi
      · -- pattern 5 is unreachable behind pattern 4
        exfalso
        have hr5 : ∃ caps, reMatch pattern5 (stripWs msg.data) = some caps := by
          cases hr : reMatch pattern5 (stripWs msg.data) with
          | some caps => exact ⟨caps, rfl⟩
          | none =>
            have hfi' : tryPattern pattern5 (stripWs msg.data) = some (a, d) := hfi
            unfold tryPattern at hfi'
            rw [hr] at hfi'
            dsimp only at hfi'
            exact Option.noConfusion hfi'
        obtain ⟨caps, hr5⟩ := hr5
        have h4 := pattern4_isSome_of_pattern5 _ caps hr5
        have hne := tryPattern4_ne_none _ h4
        have h40 := hmin 3 (by simp [expensePatterns]) (by omega)
        exact absurd h40 hne
    refine ⟨?_, hout.2, categorize_digit_sep d hout.2⟩
    intro he
    rw [he] at hout
    exact hout.1 rfl
  · have h : parse_expense "3.50" = some ((3 : ℚ) + 5 / 10 ^ 1, "0") := rfl
    rw [h]
    norm_num

/-- Witness for C9: the universal part applied at the concrete
amount-only message "50". -/
theorem c9_amount_only_split_witness :
    ("0" : String) ≠ ""
    ∧ (∀ c ∈ ("0" : String).data, c.isDigit = true ∨ isSepCh c = true)
    ∧ categorize_expense "0" = "otros" :=
  c9_amount_only_split.1 "50" 5 "0" (by decide) (by decide)

end GastosBot
